import Mathlib

/-!
Verification development for the concord organization reconciler.

The definitions below are a shallow embedding of the Go sources:
  - cmd/apply.go        (repository / topic / branch-protection reconciliation)
  - cmd/check_members.go (member reconciliation)
  - client (GetRepos, GetRepo, GetRepoTopics, GetBranches, GetBranchProtection,
    IsBranchProtected, GetOrg, GetMembers)

Remote state is modelled as pure data; the Gateway write operations act on it
with the natural semantics of the hosting provider (create adds a repository,
a partial patch touches only the set fields, protecting a branch creates the
protection entry if absent and leaves the separately-managed required-signature
flag untouched, requiring signed commits enables that flag).  The Go runtime
panic at the direct field access ghr.Topics on a nil lookup result is
modelled as an abnormal-termination marker that aborts the run at that point,
keeping the reports and writes already produced.

Report lines are modelled structurally: one constructor per Print call site in
the source, carrying the dynamic values.  Call sites whose wording differs
between dry-run and apply mode (for example updating vs updated) carry a
tense flag, true in dry-run mode, mirroring the two branches of the source.
-/

namespace Concord

/-! ## String helpers

Go strings.EqualFold is modelled on the ASCII range: both sides are folded to
lower case character codes and compared.  Go slices.Sort on strings is
modelled by insertion sort over a lexicographic byte-code comparison. -/

/-- Lower-case fold of a character code (ASCII range), as a natural number. -/
def foldNat (c : Char) : Nat :=
  if 65 ≤ c.toNat ∧ c.toNat ≤ 90 then c.toNat + 32 else c.toNat

/-- Model of strings.EqualFold restricted to the ASCII range. -/
def eqFold (a b : String) : Bool :=
  decide (a.data.map foldNat = b.data.map foldNat)

/-- Lexicographic comparison of character lists by character code. -/
def strDataLe : List Char → List Char → Bool
  | [], _ => true
  | _ :: _, [] => false
  | a :: as, b :: bs =>
    if a.toNat < b.toNat then true
    else if b.toNat < a.toNat then false
    else strDataLe as bs

/-- The ordering relation used to model Go slices.Sort on strings. -/
def strLeP (a b : String) : Prop := strDataLe a.data b.data = true

instance : DecidableRel strLeP :=
  fun a b => instDecidableEqBool (strDataLe a.data b.data) true

/-- Model of slices.Sort on a string slice. -/
def sortStrings (l : List String) : List String := List.insertionSort strLeP l

/-! ## Manifest data model (github/v1 protobuf shapes used by cmd)

Optional proto fields are Option values; nil pointer = none.
The proto field Private is a reserved word in Lean and is named priv here. -/

structure People where
  name : String
  username : String
  deriving DecidableEq

structure Protection where
  requirePr : Option Bool
  checksMustPass : Option Bool
  requiredChecks : List String
  signedCommits : Option Bool
  deriving DecidableEq

structure Branch where
  name : String
  protection : Protection
  deriving DecidableEq

structure Repository where
  name : String
  description : Option String
  archived : Option Bool
  priv : Option Bool
  defaultBranch : Option String
  labels : List String
  protectedBranches : List Branch
  deriving DecidableEq

structure Organization where
  name : String
  people : List People
  repositories : List Repository
  deriving DecidableEq

/-! ## Remote state model

github.Repository / github.Protection as far as the reconciler reads them.
A nil github.Repository pointer is Option.none; the go-github getters are
nil-safe and return zero values, modelled by the Of helpers below. -/

structure GhProt where
  requiredSignaturesEnabled : Bool
  deriving DecidableEq

structure GhRepo where
  name : String
  description : String
  archived : Bool
  priv : Bool
  defaultBranch : String
  topics : List String
  prot : List (String × GhProt)
  deriving DecidableEq

structure RemoteState where
  members : List String
  repos : List GhRepo
  deriving DecidableEq

/-- Lookup of a repository by name (the remote keys repositories by name). -/
def findRepo : List GhRepo → String → Option GhRepo
  | [], _ => none
  | r :: rs, n => if r.name = n then some r else findRepo rs n

/-- Gateway read GetRepo: found repository or not-found (modelled as none). -/
def getRepoS (s : RemoteState) (n : String) : Option GhRepo :=
  findRepo s.repos n

/-- Lookup of a branch protection entry by branch name. -/
def findProt : List (String × GhProt) → String → Option GhProt
  | [], _ => none
  | e :: es, bn => if e.fst = bn then some e.snd else findProt es bn

/-- Gateway read GetBranchProtection: none models ErrBranchProtectionNotFound
(both a missing repository and a missing protection give not-found). -/
def getProtS (s : RemoteState) (rn bn : String) : Option GhProt :=
  match getRepoS s rn with
  | some g => findProt g.prot bn
  | none => none

/-- Modify the repository stored under a name (writes are keyed by name). -/
def modifyRepos : List GhRepo → String → (GhRepo → GhRepo) → List GhRepo
  | [], _, _ => []
  | r :: rs, n, f => if r.name = n then f r :: rs else r :: modifyRepos rs n f

def modifyRepoS (s : RemoteState) (n : String) (f : GhRepo → GhRepo) : RemoteState :=
  { s with repos := modifyRepos s.repos n f }

/-- Remote effect of CreateRepo: the new repository is added. -/
def createRepoS (s : RemoteState) (g : GhRepo) : RemoteState :=
  { s with repos := s.repos ++ [g] }

/-- The partial patch built by ensureRepo (github.Repository used as edits:
only the four compared fields are ever set). -/
structure Edits where
  description : Option String
  archived : Option Bool
  priv : Option Bool
  defaultBranch : Option String
  deriving DecidableEq

def emptyEdits : Edits := ⟨none, none, none, none⟩

/-- Remote effect of UpdateRepo with a partial patch: fields left unset in the
patch are untouched server-side. -/
def applyEdits (e : Edits) (g : GhRepo) : GhRepo :=
  { g with
    description := e.description.getD g.description
    archived := e.archived.getD g.archived
    priv := e.priv.getD g.priv
    defaultBranch := e.defaultBranch.getD g.defaultBranch }

/-- Remote effect of ProtectBranch on the modelled protection content: the
entry is created when absent; the separately-managed required-signatures flag
of an existing protection is not touched by this endpoint. -/
def ensureProtEntry (bn : String) (g : GhRepo) : GhRepo :=
  match findProt g.prot bn with
  | some _ => g
  | none => { g with prot := g.prot ++ [(bn, ⟨false⟩)] }

def setProtEntry : List (String × GhProt) → String → List (String × GhProt)
  | [], _ => []
  | e :: es, bn => if e.fst = bn then (e.fst, ⟨true⟩) :: es else e :: setProtEntry es bn

/-- Remote effect of RequireSignedCommits: enables the flag on the branch. -/
def setSigEntry (bn : String) (g : GhRepo) : GhRepo :=
  { g with prot := setProtEntry g.prot bn }

/-- ghr.GetDescription() : nil-safe getter. -/
def descrOf (g : Option GhRepo) : String := (g.map GhRepo.description).getD ""

/-- ghr.GetArchived() : nil-safe getter. -/
def archivedOf (g : Option GhRepo) : Bool := (g.map GhRepo.archived).getD false

/-- ghr.GetPrivate() : nil-safe getter. -/
def privOf (g : Option GhRepo) : Bool := (g.map GhRepo.priv).getD false

/-- ghr.GetDefaultBranch() : nil-safe getter. -/
def defaultBranchOf (g : Option GhRepo) : String := (g.map GhRepo.defaultBranch).getD ""

/-! ## Reported actions and issued write calls -/

/-- One constructor per report.Print call site of the reconciler sources.
The Bool flag is the tense of the wording: true = dry-run wording
(updating / setting / creating / create / invite), false = apply wording
(updated / set / created / invited).  Constructors without a flag are printed
with identical wording in both modes. -/
inductive Report where
  | updDescription (dry : Bool) (v : String)
  | updArchived (dry : Bool) (v : Bool)
  | updPrivate (dry : Bool) (v : Bool)
  | updDefaultBranch (dry : Bool) (v : String)
  | creatingRepo (dry : Bool) (name : String)
  | setDescription (dry : Bool) (v : String)
  | setArchived (dry : Bool) (v : Bool)
  | setTopicsR (dry : Bool) (ts : List String)
  | setPrivate (dry : Bool) (v : Bool)
  | setDefaultBranch (dry : Bool) (v : String)
  | updLabels (dry : Bool) (ls : List String)
  | labelsInfo (ls : List String)
  | createProtBranch (dry : Bool) (branch : String) (repo : String)
  | setRequirePr (dry : Bool) (v : Bool)
  | setChecksMustPass (dry : Bool) (v : Bool)
  | setRequiredChecks (dry : Bool) (cs : List String)
  | protBranchInfo (branch : String) (repo : String)
  | updRequirePr (dry : Bool) (v : Bool)
  | updChecksMustPass (dry : Bool) (v : Bool)
  | updRequiredChecks (dry : Bool) (cs : List String)
  | updSignedCommits (dry : Bool) (v : Bool)
  | signedCommitsInfo (v : Bool)
  | memberUnmanaged (login : String)
  | memberManaged (login : String)
  | inviteR (dry : Bool) (name : String)
  deriving DecidableEq

/-- Rewrites the tense flag of a report line; the payload is untouched.
Mapping setDry false over a dry-run report stream rewrites each line to the
wording the apply mode would use for the same decision. -/
def setDry (d : Bool) : Report → Report
  | .updDescription _ v => .updDescription d v
  | .updArchived _ v => .updArchived d v
  | .updPrivate _ v => .updPrivate d v
  | .updDefaultBranch _ v => .updDefaultBranch d v
  | .creatingRepo _ n => .creatingRepo d n
  | .setDescription _ v => .setDescription d v
  | .setArchived _ v => .setArchived d v
  | .setTopicsR _ ts => .setTopicsR d ts
  | .setPrivate _ v => .setPrivate d v
  | .setDefaultBranch _ v => .setDefaultBranch d v
  | .updLabels _ ls => .updLabels d ls
  | .labelsInfo ls => .labelsInfo ls
  | .createProtBranch _ b r => .createProtBranch d b r
  | .setRequirePr _ v => .setRequirePr d v
  | .setChecksMustPass _ v => .setChecksMustPass d v
  | .setRequiredChecks _ cs => .setRequiredChecks d cs
  | .protBranchInfo b r => .protBranchInfo b r
  | .updRequirePr _ v => .updRequirePr d v
  | .updChecksMustPass _ v => .updChecksMustPass d v
  | .updRequiredChecks _ cs => .updRequiredChecks d cs
  | .updSignedCommits _ v => .updSignedCommits d v
  | .signedCommitsInfo v => .signedCommitsInfo v
  | .memberUnmanaged l => .memberUnmanaged l
  | .memberManaged l => .memberManaged l
  | .inviteR _ n => .inviteR d n

/-- The full projection sent by CreateRepo (github.Repository used as create
request). -/
structure CreateState where
  name : String
  description : Option String
  archived : Option Bool
  topics : List String
  priv : Option Bool
  defaultBranch : Option String
  deriving DecidableEq

/-- The github.ProtectionRequest built from a manifest branch: a (contentless)
pull-request-review requirement if RequirePr is set, and a status-check
requirement carrying the named checks if ChecksMustPass is set. -/
structure ProtectionRequest where
  requiredPullRequestReviews : Bool
  requiredStatusChecks : Option (List String)
  deriving DecidableEq

/-- Write calls issued through the Gateway. -/
inductive Call where
  | updateRepo (orgName : String) (repoName : String) (edits : Edits)
  | createRepo (orgName : String) (state : CreateState)
  | setRepoTopics (orgName : String) (repoName : String) (topics : List String)
  | protectBranch (orgName : String) (repoName : String) (branchName : String)
      (req : ProtectionRequest)
  | requireSignedCommits (orgName : String) (repoName : String) (branchName : String)
  | inviteMember (orgName : String) (name : String)
  deriving DecidableEq

/-- Abnormal terminations of a run: the branch-protection not-found error
returned by ensureSignedCommits, and the Go runtime panic raised by the
direct field access ghr.Topics when the repository lookup result kept by
ensureRepo is nil (ghr.Topics is a plain selector, not one of the nil-safe
generated getters used for the patch fields). -/
inductive Err where
  | branchProtectionNotFound
  | nilPointerDereference
  deriving DecidableEq

/-! ## Reconciler (cmd/apply.go) -/

structure CreateOut where
  reports : List Report
  writes : List Call
  state : RemoteState

structure TopicsOut where
  reports : List Report
  writes : List Call
  err : Option Err
  repo : Repository
  state : RemoteState

structure BranchOut where
  reports : List Report
  writes : List Call
  err : Option Err
  state : RemoteState

structure RepoOut where
  reports : List Report
  writes : List Call
  err : Option Err
  repo : Repository
  state : RemoteState

structure ReposOut where
  reports : List Report
  writes : List Call
  err : Option Err
  repos : List Repository
  state : RemoteState

structure MembersOut where
  reports : List Report
  writes : List Call

structure RunOut where
  reports : List Report
  writes : List Call
  err : Option Err
  org : Organization
  state : RemoteState

/-- Field-level patch computed by ensureRepo for an existing repository:
a manifest field populates the patch only when it is set and differs from the
remote value, case-insensitively for description and default branch. -/
def computeEdits (repo : Repository) (ghr : Option GhRepo) : Edits where
  description :=
    match repo.description with
    | some d => if eqFold (descrOf ghr) d then none else some d
    | none => none
  archived :=
    match repo.archived with
    | some a => if archivedOf ghr = a then none else some a
    | none => none
  priv :=
    match repo.priv with
    | some p => if privOf ghr = p then none else some p
    | none => none
  defaultBranch :=
    match repo.defaultBranch with
    | some v => if eqFold (defaultBranchOf ghr) v then none else some v
    | none => none

def optReport {α : Type} (o : Option α) (f : α → Report) : List Report :=
  match o with
  | some v => [f v]
  | none => []

/-- The update reports of ensureRepo, in source order (description, archived,
private, default branch); identical guard structure in both modes. -/
def editReports (dry : Bool) (e : Edits) : List Report :=
  optReport e.description (Report.updDescription dry) ++
  optReport e.archived (Report.updArchived dry) ++
  optReport e.priv (Report.updPrivate dry) ++
  optReport e.defaultBranch (Report.updDefaultBranch dry)

/-- The create request built by createRepo: name plus every set manifest field
(a nil topic slice and an empty one coincide in the model). -/
def createState (repo : Repository) : CreateState where
  name := repo.name
  description := repo.description
  archived := repo.archived
  topics := repo.labels
  priv := repo.priv
  defaultBranch := repo.defaultBranch

def createReports (dry : Bool) (cs : CreateState) : List Report :=
  Report.creatingRepo dry cs.name ::
    (optReport cs.description (Report.setDescription dry) ++
     optReport cs.archived (Report.setArchived dry) ++
     (if cs.topics.isEmpty then [] else [Report.setTopicsR dry cs.topics]) ++
     optReport cs.priv (Report.setPrivate dry) ++
     optReport cs.defaultBranch (Report.setDefaultBranch dry))

/-- The repository created remotely from the create request (unset optional
fields take the provider defaults; no branch protection exists yet). -/
def ghRepoOfCreate (cs : CreateState) : GhRepo where
  name := cs.name
  description := cs.description.getD ""
  archived := cs.archived.getD false
  priv := cs.priv.getD false
  defaultBranch := cs.defaultBranch.getD ""
  topics := cs.topics
  prot := []

/-- createRepo: in dry-run mode only reports; in apply mode issues the single
CreateRepo call carrying the full desired projection. -/
def createRepoM (orgName : String) (repo : Repository) (dry : Bool)
    (s : RemoteState) : CreateOut :=
  let cs := createState repo
  if dry then ⟨createReports true cs, [], s⟩
  else ⟨createReports false cs, [Call.createRepo orgName cs],
    createRepoS s (ghRepoOfCreate cs)⟩

/-- ensureTopics: an empty manifest label list returns immediately; otherwise
the current topics are read by the direct field access ghr.Topics, which
panics when ghr is nil (the lookup was not-found) — modelled as the
nil-dereference termination, emitting nothing.  On a non-nil ghr both the
topics and the manifest labels are sorted (the manifest label slice is sorted
in place) and compared for exact sequence equality; on difference a single
replace-all SetRepoTopics call carries the sorted list. -/
def ensureTopicsM (orgName : String) (repo : Repository) (ghr : Option GhRepo)
    (dry : Bool) (s : RemoteState) : TopicsOut :=
  if repo.labels.isEmpty then ⟨[], [], none, repo, s⟩
  else
    match ghr with
    | none => ⟨[], [], some Err.nilPointerDereference, repo, s⟩
    | some g =>
      let ghl := sortStrings g.topics
      let l := sortStrings repo.labels
      let repo2 := { repo with labels := l }
      if ghl = l then ⟨[Report.labelsInfo l], [], none, repo2, s⟩
      else if dry then ⟨[Report.updLabels true l], [], none, repo2, s⟩
      else ⟨[Report.updLabels false l],
        [Call.setRepoTopics orgName repo.name l], none, repo2,
        modifyRepoS s repo.name (fun g2 => { g2 with topics := l })⟩

/-- The protection request built identically by createProtectedBranch and
UpdateBranchProtection. -/
def buildReq (b : Branch) : ProtectionRequest where
  requiredPullRequestReviews := b.protection.requirePr.isSome
  requiredStatusChecks :=
    match b.protection.checksMustPass with
    | some _ => some b.protection.requiredChecks
    | none => none

def createProtReports (dry : Bool) (repoName : String) (b : Branch) : List Report :=
  Report.createProtBranch dry b.name repoName ::
    ((match b.protection.requirePr with
      | some v => [Report.setRequirePr dry v]
      | none => []) ++
     (match b.protection.checksMustPass with
      | some v =>
        Report.setChecksMustPass dry v ::
          (if b.protection.requiredChecks.isEmpty then []
           else [Report.setRequiredChecks dry b.protection.requiredChecks])
      | none => []))

def updateProtReports (dry : Bool) (repoName : String) (b : Branch) : List Report :=
  Report.protBranchInfo b.name repoName ::
    ((match b.protection.requirePr with
      | some v => [Report.updRequirePr dry v]
      | none => []) ++
     (match b.protection.checksMustPass with
      | some v =>
        Report.updChecksMustPass dry v ::
          (if b.protection.requiredChecks.isEmpty then []
           else [Report.updRequiredChecks dry b.protection.requiredChecks])
      | none => []))

/-- ensureSignedCommits: nothing to do when the manifest leaves the flag
unset; otherwise the current protection is fetched again (not-found is an
error) and the flag is patched only on mismatch. -/
def ensureSignedCommitsM (orgName : String) (repoName : String) (b : Branch)
    (dry : Bool) (s : RemoteState) : BranchOut :=
  match b.protection.signedCommits with
  | none => ⟨[], [], none, s⟩
  | some sc =>
    match getProtS s repoName b.name with
    | none => ⟨[], [], some Err.branchProtectionNotFound, s⟩
    | some p =>
      if p.requiredSignaturesEnabled = sc then ⟨[Report.signedCommitsInfo sc], [], none, s⟩
      else if dry then ⟨[Report.updSignedCommits true sc], [], none, s⟩
      else ⟨[Report.updSignedCommits false sc],
        [Call.requireSignedCommits orgName repoName b.name], none,
        modifyRepoS s repoName (setSigEntry b.name)⟩

/-- createProtectedBranch: builds the request, reports (in apply mode after
issuing the ProtectBranch call), then runs the signed-commit step. -/
def createProtectedBranchM (orgName : String) (repoName : String) (b : Branch)
    (dry : Bool) (s : RemoteState) : BranchOut :=
  let req := buildReq b
  if dry then
    let sc := ensureSignedCommitsM orgName repoName b true s
    ⟨createProtReports true repoName b ++ sc.reports, sc.writes, sc.err, sc.state⟩
  else
    let s1 := modifyRepoS s repoName (ensureProtEntry b.name)
    let sc := ensureSignedCommitsM orgName repoName b false s1
    ⟨createProtReports false repoName b ++ sc.reports,
      Call.protectBranch orgName repoName b.name req :: sc.writes, sc.err, sc.state⟩

/-- UpdateBranchProtection: reports the info line in both modes, then in apply
mode unconditionally reissues the ProtectBranch call with the constructed
request (existing protection content is not read for comparison), then runs
the signed-commit step. -/
def updateBranchProtectionM (orgName : String) (repoName : String) (b : Branch)
    (dry : Bool) (s : RemoteState) : BranchOut :=
  let req := buildReq b
  if dry then
    let sc := ensureSignedCommitsM orgName repoName b true s
    ⟨updateProtReports true repoName b ++ sc.reports, sc.writes, sc.err, sc.state⟩
  else
    let s1 := modifyRepoS s repoName (ensureProtEntry b.name)
    let sc := ensureSignedCommitsM orgName repoName b false s1
    ⟨updateProtReports false repoName b ++ sc.reports,
      Call.protectBranch orgName repoName b.name req :: sc.writes, sc.err, sc.state⟩

/-- One iteration of ensureProtectedBranches: the protection lookup decides
between the create and the update path. -/
def processBranchM (orgName : String) (repoName : String) (b : Branch)
    (dry : Bool) (s : RemoteState) : BranchOut :=
  match getProtS s repoName b.name with
  | none => createProtectedBranchM orgName repoName b dry s
  | some _ => updateBranchProtectionM orgName repoName b dry s

/-- ensureProtectedBranches: branches are processed in order; an error aborts
the loop. -/
def branchesLoop (orgName : String) (repoName : String) (dry : Bool) :
    List Branch → RemoteState → BranchOut
  | [], s => ⟨[], [], none, s⟩
  | b :: bs, s =>
    let o := processBranchM orgName repoName b dry s
    match o.err with
    | some e => ⟨o.reports, o.writes, some e, o.state⟩
    | none =>
      let rest := branchesLoop orgName repoName dry bs o.state
      ⟨o.reports ++ rest.reports, o.writes ++ rest.writes, rest.err, rest.state⟩

/-- ensureRepo: repository lookup, create on not-found (the looked-up ghr stays
nil afterwards), compute the patch against ghr, in apply mode unconditionally
issue the UpdateRepo call, report, then topics and protected branches.  An
abnormal outcome of the topics step (the nil-dereference panic) ends the
repository processing there: the protected-branch phase is never reached. -/
def ensureRepoM (orgName : String) (repo : Repository) (dry : Bool)
    (s : RemoteState) : RepoOut :=
  let ghr := getRepoS s repo.name
  let c : CreateOut :=
    match ghr with
    | none => createRepoM orgName repo dry s
    | some _ => ⟨[], [], s⟩
  let edits := computeEdits repo ghr
  let updWrites : List Call := if dry then [] else [Call.updateRepo orgName repo.name edits]
  let s2 := if dry then c.state else modifyRepoS c.state repo.name (applyEdits edits)
  let t := ensureTopicsM orgName repo ghr dry s2
  let rest : List Report × List Call × Option Err × RemoteState :=
    match t.err with
    | some e => ([], [], some e, t.state)
    | none =>
      let pb := branchesLoop orgName repo.name dry repo.protectedBranches t.state
      (pb.reports, pb.writes, pb.err, pb.state)
  ⟨c.reports ++ editReports dry edits ++ t.reports ++ rest.1,
    c.writes ++ updWrites ++ t.writes ++ rest.2.1, rest.2.2.1, t.repo, rest.2.2.2⟩

/-- reposRun: repositories are processed in order; an error aborts the run and
later repositories stay untouched. -/
def reposLoop (orgName : String) (dry : Bool) :
    List Repository → RemoteState → ReposOut
  | [], s => ⟨[], [], none, [], s⟩
  | r :: rs, s =>
    let o := ensureRepoM orgName r dry s
    match o.err with
    | some e => ⟨o.reports, o.writes, some e, o.repo :: rs, o.state⟩
    | none =>
      let rest := reposLoop orgName dry rs o.state
      ⟨o.reports ++ rest.reports, o.writes ++ rest.writes, rest.err,
        o.repo :: rest.repos, rest.state⟩

/-! ## Member reconciler (cmd/check_members.go) -/

/-- managedMember: some manifest member has the remote login, compared
case-insensitively. -/
def managedMember (manifestMembers : List People) (login : String) : Bool :=
  manifestMembers.any (fun mm => eqFold mm.username login)

/-- missingMembers: the manifest members for which no remote login matches
case-insensitively, in manifest order. -/
def missingMembers : List People → List String → List People
  | [], _ => []
  | mm :: rest, gms =>
    if gms.any (fun gl => eqFold mm.username gl) then missingMembers rest gms
    else mm :: missingMembers rest gms

def memberReport (people : List People) (login : String) : Report :=
  if managedMember people login then Report.memberManaged login
  else Report.memberUnmanaged login

/-- inviteMembers: one invitation (by display name) per missing member; in
dry-run mode only the report line is produced. -/
def inviteMembersM (orgName : String) (ms : List People) (dry : Bool) : MembersOut :=
  if dry then ⟨ms.map (fun m => Report.inviteR true m.name), []⟩
  else ⟨ms.map (fun m => Report.inviteR false m.name),
    ms.map (fun m => Call.inviteMember orgName m.name)⟩

/-- membersRun: one line per remote member (unmanaged warning or managed
info), then the invitations for the missing manifest members. -/
def membersRunM (org : Organization) (dry : Bool) (s : RemoteState) : MembersOut :=
  let inv := inviteMembersM org.name (missingMembers org.people s.members) dry
  ⟨s.members.map (memberReport org.people) ++ inv.reports, inv.writes⟩

/-- A full run over one organization: member reconciliation followed by
repository reconciliation.  (Team reconciliation sits between the two in the
apply command but is out of scope of the core by the design document and its
code is not part of the reconciler sources modelled here.) -/
def runAll (org : Organization) (dry : Bool) (s : RemoteState) : RunOut :=
  let m := membersRunM org dry s
  let r := reposLoop org.name dry org.repositories s
  ⟨m.reports ++ r.reports, m.writes ++ r.writes, r.err,
    { org with repositories := r.repos }, r.state⟩

/-! ## Remote Gateway (client): classified results, pagination, rate limit

Every provider response is one of ok / not-found / rate-limited / other-error;
the Gateway functions branch on this classification exactly as the source
branches on the go-github error shapes.  Each modelled operation returns the
number of provider calls it performed together with its result, so that the
absence of retries is a provable statement. -/

structure PagedRepo where
  rid : Nat
  archived : Bool
  deriving DecidableEq

/-- Response of one repository-list page request: the repositories of the page
and the next page number (0 = no further page). -/
inductive PageResp where
  | ok (repos : List PagedRepo) (nextPage : Nat)
  | rateLimited
  | otherErr
  deriving DecidableEq

/-- Response of the organization / user account probe, carrying the public and
total-private repository counts on success. -/
inductive AcctResp where
  | ok (publicRepos : Nat) (totalPrivateRepos : Nat)
  | notFound
  | rateLimited
  | otherErr
  deriving DecidableEq

structure ReposProvider where
  orgResp : AcctResp
  userResp : AcctResp
  listOrgPage : Nat → PageResp
  listUserPage : Nat → PageResp

inductive GwErr where
  | hitRateLimit
  | getOrgErr
  | getUserErr
  | noReposFound
  | listReposErr
  | repoNotFound
  | branchProtectionNotFound
  | getRepoErr
  | getRepoTopicsErr
  | getBranchesErr
  | getBranchErr
  | getOrgNotFound
  | getMembersErr
  deriving DecidableEq

/-- The paging loop of GetRepos: list the current page, keep the non-archived
repositories, stop when the provider reports no further page, otherwise
advance to the reported next page.  The first component counts the
page-listing calls performed.  The fuel argument bounds the loop so the
function is total; none means the fuel ran out before the provider reported a
last page. -/
def getReposLoop (listPage : Nat → PageResp) :
    Nat → Nat → List PagedRepo → Option (Nat × Except GwErr (List PagedRepo))
  | 0, _, _ => none
  | fuel + 1, page, acc =>
    match listPage page with
    | .rateLimited => some (1, .error .hitRateLimit)
    | .otherErr => some (1, .error .listReposErr)
    | .ok rs np =>
      let acc2 := acc ++ rs.filter (fun r => !r.archived)
      if np = 0 then some (1, .ok acc2)
      else (getReposLoop listPage fuel np acc2).map (fun p => (p.fst + 1, p.snd))

/-- GetRepos: probe the organization (falling back to the user account on
not-found), read the public+private repository count, short-circuit with
ErrNoReposFound when it is below one, otherwise run the paging loop starting
at page 0.  The counter counts page-listing calls. -/
def getReposG (p : ReposProvider) (fuel : Nat) :
    Option (Nat × Except GwErr (List PagedRepo)) :=
  match p.orgResp with
  | .rateLimited => some (0, .error .hitRateLimit)
  | .otherErr => some (0, .error .getOrgErr)
  | .notFound =>
    match p.userResp with
    | .ok pub priv =>
      if pub + priv < 1 then some (0, .error .noReposFound)
      else getReposLoop p.listUserPage fuel 0 []
    | .rateLimited => some (0, .error .hitRateLimit)
    | _ => some (0, .error .getUserErr)
  | .ok pub priv =>
    if pub + priv < 1 then some (0, .error .noReposFound)
    else getReposLoop p.listOrgPage fuel 0 []

/-- The chain of pages served by a provider from a start page until it reports
no further page (none when the chain does not terminate within fuel). -/
def chainFrom (listPage : Nat → PageResp) : Nat → Nat → Option (List (List PagedRepo))
  | 0, _ => none
  | fuel + 1, page =>
    match listPage page with
    | .ok rs np =>
      if np = 0 then some [rs]
      else (chainFrom listPage fuel np).map (fun pages => rs :: pages)
    | _ => none

/-- Classified response of a single-shot provider endpoint. -/
inductive CallResp (α : Type) where
  | ok (a : α)
  | notFound
  | rateLimited
  | otherErr

/-- GetRepo: one provider call; rate-limit fails immediately, not-found maps
to ErrRepoNotFound. -/
def getRepoG (resp : CallResp GhRepo) : Nat × Except GwErr GhRepo :=
  match resp with
  | .ok r => (1, .ok r)
  | .rateLimited => (1, .error .hitRateLimit)
  | .notFound => (1, .error .repoNotFound)
  | .otherErr => (1, .error .getRepoErr)

/-- GetRepoTopics: one provider call. -/
def getRepoTopicsG (resp : CallResp (List String)) : Nat × Except GwErr (List String) :=
  match resp with
  | .ok ts => (1, .ok ts)
  | .rateLimited => (1, .error .hitRateLimit)
  | .notFound => (1, .error .repoNotFound)
  | .otherErr => (1, .error .getRepoTopicsErr)

/-- GetBranches: one provider call. -/
def getBranchesG (resp : CallResp (List String)) : Nat × Except GwErr (List String) :=
  match resp with
  | .ok bs => (1, .ok bs)
  | .rateLimited => (1, .error .hitRateLimit)
  | .notFound => (1, .error .repoNotFound)
  | .otherErr => (1, .error .getBranchesErr)

/-- GetBranchProtection: one provider call; not-found maps to
ErrBranchProtectionNotFound. -/
def getBranchProtectionG (resp : CallResp GhProt) : Nat × Except GwErr GhProt :=
  match resp with
  | .ok b => (1, .ok b)
  | .rateLimited => (1, .error .hitRateLimit)
  | .notFound => (1, .error .branchProtectionNotFound)
  | .otherErr => (1, .error .getBranchErr)

/-- IsBranchProtected: one provider call; not-found is a successful false. -/
def isBranchProtectedG (resp : CallResp GhProt) : Nat × Except GwErr Bool :=
  match resp with
  | .ok _ => (1, .ok true)
  | .rateLimited => (1, .error .hitRateLimit)
  | .notFound => (1, .ok false)
  | .otherErr => (1, .error .getBranchErr)

/-- GetOrg (client/orgs.go): one provider call; not-found maps to
ErrOrgNotFound, a rate limit is returned as the error itself. -/
def getOrgG (resp : CallResp Nat) : Nat × Except GwErr Nat :=
  match resp with
  | .ok o => (1, .ok o)
  | .rateLimited => (1, .error .hitRateLimit)
  | .notFound => (1, .error .getOrgNotFound)
  | .otherErr => (1, .error .getMembersErr)

/-- GetMembers (client/orgs.go): one provider call. -/
def getMembersG (resp : CallResp (List String)) : Nat × Except GwErr (List String) :=
  match resp with
  | .ok ms => (1, .ok ms)
  | .rateLimited => (1, .error .hitRateLimit)
  | .notFound => (1, .error .getMembersErr)
  | .otherErr => (1, .error .getMembersErr)

/-! ## Matching predicates (the premises of the idempotence claim) -/

/-- A manifest branch matches the remote repository when its protection exists
remotely and, if the manifest sets the signed-commit flag, the remote flag
agrees. -/
def branchMatchesB (g : GhRepo) (b : Branch) : Bool :=
  match findProt g.prot b.name with
  | some p =>
    match b.protection.signedCommits with
    | some sc => p.requiredSignaturesEnabled = sc
    | none => true
  | none => false

/-- A manifest repository matches a remote repository when every field the
manifest sets agrees with the remote value (case-insensitively for the string
fields), a nonempty label list agrees with the topics as a sorted sequence,
and every manifested protected branch matches. -/
def repoMatchesB (r : Repository) (g : GhRepo) : Bool :=
  (match r.description with
   | some d => eqFold g.description d
   | none => true) &&
  (match r.archived with
   | some a => g.archived = a
   | none => true) &&
  (match r.priv with
   | some p => g.priv = p
   | none => true) &&
  (match r.defaultBranch with
   | some v => eqFold g.defaultBranch v
   | none => true) &&
  (r.labels.isEmpty || (sortStrings g.topics = sortStrings r.labels : Bool)) &&
  r.protectedBranches.all (branchMatchesB g)

/-- Every listed manifest repository exists remotely and matches. -/
def reposMatchB (s : RemoteState) (rs : List Repository) : Bool :=
  rs.all (fun r =>
    match getRepoS s r.name with
    | some g => repoMatchesB r g
    | none => false)

/-- The remote state already matches every field the manifest sets: every
manifest member is present remotely and every manifest repository exists and
matches. -/
def remoteMatchesB (org : Organization) (s : RemoteState) : Bool :=
  org.people.all (fun p => s.members.any (fun l => eqFold p.username l)) &&
  reposMatchB s org.repositories

/-! ## Concrete instances used by the closed theorems below -/

/-- A manifest with one fully-unmanaged repository. -/
def orgOneRepo : Organization := ⟨"o", [], [⟨"r", none, none, none, none, [], []⟩]⟩

/-- A remote state holding exactly that repository. -/
def sOneRepo : RemoteState := ⟨[], [⟨"r", "", false, false, "", [], []⟩]⟩

/-- A branch that only sets the signed-commit flag. -/
def brSigned : Branch := ⟨"main", ⟨none, none, [], some true⟩⟩

/-- A manifest whose single repository declares brSigned protected. -/
def orgSigned : Organization := ⟨"o", [], [⟨"r", none, none, none, none, [], [brSigned]⟩]⟩

/-- A manifest whose single repository has the unsorted label list [b, a]. -/
def orgLabels : Organization := ⟨"o", [], [⟨"r", none, none, none, none, ["b", "a"], []⟩]⟩

/-- A remote state matching orgLabels (topics [a, b], equal as multisets). -/
def sLabels : RemoteState := ⟨[], [⟨"r", "", false, false, "", ["a", "b"], []⟩]⟩

/-- A manifest repository that sets only a description. -/
def repoDescr : Repository := ⟨"r", some "x", none, none, none, [], []⟩

/-- The empty remote state (repository lookup is not-found). -/
def sEmpty : RemoteState := ⟨[], []⟩

/-- A remote repository carrying one topic. -/
def ghTopicA : GhRepo := ⟨"r", "", false, false, "", ["a"], []⟩

/-- The manifest of the membership example: members alice and bob. -/
def orgAliceBob : Organization := ⟨"o", [⟨"alice", "alice"⟩, ⟨"bob", "bob"⟩], []⟩

/-- The remote state of the membership example: members bob and carol. -/
def sBobCarol : RemoteState := ⟨["bob", "carol"], []⟩

/-- A page of consecutive non-archived repositories. -/
def mkPage (a n : Nat) : List PagedRepo := (List.range n).map (fun i => ⟨a + i, false⟩)

/-- A provider account with 250 non-archived repositories served in pages of
at most 100 (the middle page also carries two archived repositories). -/
def prov250 : ReposProvider :=
  ⟨AcctResp.ok 250 0, AcctResp.otherErr,
   fun p =>
     if p = 0 then PageResp.ok (mkPage 0 100) 2
     else if p = 2 then PageResp.ok (mkPage 100 100 ++ [⟨1000, true⟩, ⟨1001, true⟩]) 3
     else if p = 3 then PageResp.ok (mkPage 200 50) 0
     else PageResp.otherErr,
   fun _ => PageResp.otherErr⟩

/-- The pages served by prov250 starting at page 0. -/
def pages250 : List (List PagedRepo) :=
  [mkPage 0 100, mkPage 100 100 ++ [⟨1000, true⟩, ⟨1001, true⟩], mkPage 200 50]

/-- A provider account whose repository counts are zero. -/
def prov0 : ReposProvider :=
  ⟨AcctResp.ok 0 0, AcctResp.otherErr, fun _ => PageResp.otherErr, fun _ => PageResp.otherErr⟩

/-- A provider whose page listing is rate limited. -/
def provRL : ReposProvider :=
  ⟨AcctResp.rateLimited, AcctResp.rateLimited, fun _ => PageResp.rateLimited,
   fun _ => PageResp.rateLimited⟩

/-- A remote state matching orgSigned: the protection of brSigned exists and
its required-signatures flag agrees with the manifest. -/
def sSigned : RemoteState :=
  ⟨[], [⟨"r", "", false, false, "", [], [("main", ⟨true⟩)]⟩]⟩

/-- A bare repository manifest entry (nothing managed). -/
def repoBare : Repository := ⟨"r", none, none, none, none, [], []⟩

/-- A manifest listing the same bare repository twice. -/
def orgDup : Organization := ⟨"o", [], [repoBare, repoBare]⟩

/-- A branch that manages nothing. -/
def brPlain : Branch := ⟨"main", ⟨none, none, [], none⟩⟩

/-- A manifest whose single repository declares the same branch twice. -/
def orgDupBr : Organization :=
  ⟨"o", [], [⟨"r", none, none, none, none, [], [brPlain, brPlain]⟩]⟩

/-- A manifest whose single repository is absent remotely and carries a
non-empty label list: the input on which the program panics at the nil
ghr.Topics access after creating the repository. -/
def orgAbsentLabels : Organization := ⟨"o", [], [⟨"r", none, none, none, none, ["t"], []⟩]⟩

/-! ## Order lemmas for the sort model -/

theorem strDataLe_total (as : List Char) :
    ∀ bs, strDataLe as bs = true ∨ strDataLe bs as = true := by
  induction as with
  | nil => intro bs; left; rfl
  | cons a as ih =>
    intro bs
    cases bs with
    | nil => right; rfl
    | cons b bs =>
      simp only [strDataLe]
      rcases Nat.lt_trichotomy a.toNat b.toNat with h | h | h
      · left; simp [h]
      · have hne : ¬ a.toNat < b.toNat := by omega
        have hne2 : ¬ b.toNat < a.toNat := by omega
        rcases ih bs with h2 | h2
        · left; simp [hne, hne2, h2]
        · right; simp [hne, hne2, h2]
      · right; simp [h, Nat.lt_asymm h]

theorem char_eq_of_toNat_eq {a b : Char} (h : a.toNat = b.toNat) : a = b :=
  Char.ext (UInt32.ext h)

theorem strDataLe_antisymm (as : List Char) :
    ∀ bs, strDataLe as bs = true → strDataLe bs as = true → as = bs := by
  induction as with
  | nil =>
    intro bs h1 h2
    cases bs with
    | nil => rfl
    | cons b bs => simp [strDataLe] at h2
  | cons a as ih =>
    intro bs h1 h2
    cases bs with
    | nil => simp [strDataLe] at h1
    | cons b bs =>
      simp only [strDataLe] at h1 h2
      by_cases hab : a.toNat < b.toNat
      · have hnb : ¬ b.toNat < a.toNat := by omega
        simp [hab, hnb] at h2
      · by_cases hba : b.toNat < a.toNat
        · simp [hab, hba] at h1
        · have heq : a = b := char_eq_of_toNat_eq (by omega)
          simp only [if_neg hab, if_neg hba] at h1 h2
          rw [heq, ih bs h1 h2]

theorem strDataLe_trans (as : List Char) :
    ∀ bs cs, strDataLe as bs = true → strDataLe bs cs = true → strDataLe as cs = true := by
  induction as with
  | nil => intro bs cs _ _; rfl
  | cons a as ih =>
    intro bs cs h1 h2
    cases bs with
    | nil => simp [strDataLe] at h1
    | cons b bs =>
      cases cs with
      | nil => simp [strDataLe] at h2
      | cons c cs =>
        simp only [strDataLe] at h1 h2 ⊢
        by_cases hab : a.toNat < b.toNat
        · by_cases hbc : b.toNat < c.toNat
          · simp [show a.toNat < c.toNat by omega]
          · by_cases hcb : c.toNat < b.toNat
            · simp [hbc, hcb] at h2
            · simp [show a.toNat < c.toNat by omega]
        · by_cases hba : b.toNat < a.toNat
          · simp [hab, hba] at h1
          · by_cases hbc : b.toNat < c.toNat
            · simp [show a.toNat < c.toNat by omega]
            · by_cases hcb : c.toNat < b.toNat
              · simp [hbc, hcb] at h2
              · have h1x : strDataLe as bs = true := by simpa [hab, hba] using h1
                have h2x : strDataLe bs cs = true := by simpa [hbc, hcb] using h2
                simp only [if_neg (show ¬ a.toNat < c.toNat by omega),
                  if_neg (show ¬ c.toNat < a.toNat by omega)]
                exact ih bs cs h1x h2x

instance : IsTotal String strLeP := ⟨fun a b => strDataLe_total a.data b.data⟩

instance : IsTrans String strLeP := ⟨fun a b c => strDataLe_trans a.data b.data c.data⟩

instance : IsAntisymm String strLeP :=
  ⟨fun a b h1 h2 => by
    cases a with
    | mk da =>
      cases b with
      | mk db => exact congrArg String.mk (strDataLe_antisymm da db h1 h2)⟩

/-- Two string lists have equal slices.Sort images exactly when they are equal
as multisets. -/
theorem sortStrings_eq_iff_perm (a b : List String) :
    sortStrings a = sortStrings b ↔ a.Perm b := by
  constructor
  · intro h
    have hb2 : (sortStrings a).Perm b := by
      rw [h]; exact List.perm_insertionSort strLeP b
    exact (List.perm_insertionSort strLeP a).symm.trans hb2
  · intro h
    exact List.eq_of_perm_of_sorted
      ((List.perm_insertionSort strLeP a).trans
        (h.trans (List.perm_insertionSort strLeP b).symm))
      (List.sorted_insertionSort strLeP a)
      (List.sorted_insertionSort strLeP b)

/-! ## C10: empty label list disables topic management -/

/-- C10: for every manifest repository whose label list is empty, topic
reconciliation returns immediately: no report, no write, the manifest
repository and the remote state are untouched, regardless of the remote
topics. -/
theorem empty_labels_disable_topics (orgName : String) (repo : Repository)
    (ghr : Option GhRepo) (dry : Bool) (s : RemoteState) (h : repo.labels = []) :
    ensureTopicsM orgName repo ghr dry s = ⟨[], [], none, repo, s⟩ := by
  simp [ensureTopicsM, h]

theorem empty_labels_disable_topics_witness :
    ensureTopicsM "o" ⟨"r", none, none, none, none, [], []⟩ (some ghTopicA) false
      ⟨[], [ghTopicA]⟩ =
      ⟨[], [], none, ⟨"r", none, none, none, none, [], []⟩, ⟨[], [ghTopicA]⟩⟩ :=
  empty_labels_disable_topics "o" ⟨"r", none, none, none, none, [], []⟩ (some ghTopicA)
    false ⟨[], [ghTopicA]⟩ rfl

/-! ## C3: minimal patch -/

/-- C3: the patch computed by ensureRepo contains exactly the fields that are
set in the manifest and differ from the remote value (case-insensitively for
description and default branch); unset fields are never present, and when
only the description differs the patch sets exactly the description. -/
theorem minimal_patch (repo : Repository) (ghr : Option GhRepo) :
    (∀ d, (computeEdits repo ghr).description = some d ↔
      repo.description = some d ∧ eqFold (descrOf ghr) d = false) ∧
    (∀ a, (computeEdits repo ghr).archived = some a ↔
      repo.archived = some a ∧ archivedOf ghr ≠ a) ∧
    (∀ p, (computeEdits repo ghr).priv = some p ↔
      repo.priv = some p ∧ privOf ghr ≠ p) ∧
    (∀ v, (computeEdits repo ghr).defaultBranch = some v ↔
      repo.defaultBranch = some v ∧ eqFold (defaultBranchOf ghr) v = false) ∧
    (∀ d, repo.description = some d → eqFold (descrOf ghr) d = false →
      (∀ a, repo.archived = some a → archivedOf ghr = a) →
      (∀ p, repo.priv = some p → privOf ghr = p) →
      (∀ v, repo.defaultBranch = some v → eqFold (defaultBranchOf ghr) v = true) →
      computeEdits repo ghr = ⟨some d, none, none, none⟩) := by
  refine ⟨fun d => ?_, fun a => ?_, fun p => ?_, fun v => ?_, ?_⟩
  · cases hd : repo.description with
    | none => simp [computeEdits, hd]
    | some d0 =>
      by_cases he : eqFold (descrOf ghr) d0 = true
      · simp only [computeEdits, hd, if_pos he]
        constructor
        · intro hc; cases hc
        · rintro ⟨hde, hf⟩
          rw [Option.some.injEq] at hde
          rw [← hde, he] at hf
          cases hf
      · simp only [computeEdits, hd, if_neg he, Option.some.injEq]
        constructor
        · intro hc
          exact ⟨by rw [hc], by rw [← hc]; simpa using he⟩
        · intro hc
          exact hc.1
  · cases hd : repo.archived with
    | none => simp [computeEdits, hd]
    | some a0 =>
      by_cases he : archivedOf ghr = a0
      · simp only [computeEdits, hd, if_pos he]
        constructor
        · intro hc; cases hc
        · rintro ⟨hde, hf⟩
          rw [Option.some.injEq] at hde
          rw [← hde] at hf
          exact absurd he hf
      · simp only [computeEdits, hd, if_neg he, Option.some.injEq]
        constructor
        · intro hc; exact ⟨by rw [hc], by rw [← hc]; exact he⟩
        · intro hc; exact hc.1
  · cases hd : repo.priv with
    | none => simp [computeEdits, hd]
    | some p0 =>
      by_cases he : privOf ghr = p0
      · simp only [computeEdits, hd, if_pos he]
        constructor
        · intro hc; cases hc
        · rintro ⟨hde, hf⟩
          rw [Option.some.injEq] at hde
          rw [← hde] at hf
          exact absurd he hf
      · simp only [computeEdits, hd, if_neg he, Option.some.injEq]
        constructor
        · intro hc; exact ⟨by rw [hc], by rw [← hc]; exact he⟩
        · intro hc; exact hc.1
  · cases hd : repo.defaultBranch with
    | none => simp [computeEdits, hd]
    | some v0 =>
      by_cases he : eqFold (defaultBranchOf ghr) v0 = true
      · simp only [computeEdits, hd, if_pos he]
        constructor
        · intro hc; cases hc
        · rintro ⟨hde, hf⟩
          rw [Option.some.injEq] at hde
          rw [← hde, he] at hf
          cases hf
      · simp only [computeEdits, hd, if_neg he, Option.some.injEq]
        constructor
        · intro hc; exact ⟨by rw [hc], by rw [← hc]; simpa using he⟩
        · intro hc; exact hc.1
  · intro d hd hne ha hp hv
    have h1 : (computeEdits repo ghr).description = some d := by
      simp [computeEdits, hd, hne]
    have h2 : (computeEdits repo ghr).archived = none := by
      cases hda : repo.archived with
      | none => simp [computeEdits, hda]
      | some a0 => simp [computeEdits, hda, ha a0 hda]
    have h3 : (computeEdits repo ghr).priv = none := by
      cases hdp : repo.priv with
      | none => simp [computeEdits, hdp]
      | some p0 => simp [computeEdits, hdp, hp p0 hdp]
    have h4 : (computeEdits repo ghr).defaultBranch = none := by
      cases hdv : repo.defaultBranch with
      | none => simp [computeEdits, hdv]
      | some v0 => simp [computeEdits, hdv, hv v0 hdv]
    cases hE : computeEdits repo ghr
    rw [hE] at h1 h2 h3 h4
    simp only at h1 h2 h3 h4
    rw [h1, h2, h3, h4]

theorem minimal_patch_witness :
    computeEdits ⟨"r", some "x", some false, none, some "Main", [], []⟩
      (some ⟨"r", "y", false, false, "main", [], []⟩) = ⟨some "x", none, none, none⟩ :=
  (minimal_patch ⟨"r", some "x", some false, none, some "Main", [], []⟩
    (some ⟨"r", "y", false, false, "main", [], []⟩)).2.2.2.2 "x" rfl (by decide)
    (fun a ha => by cases ha; rfl) (fun p hp => by cases hp)
    (fun v hv => by cases hv; decide)

/-! ## C5: topic order-independence (corrected) -/

/-- C5 counterexample: the claim asserts that every (labels, topics) pair that
differs as multisets triggers exactly one replace-all call, but an empty
manifest label list against the nonempty remote topic list [a] triggers no
call at all in apply mode. -/
theorem topics_empty_cex :
    ¬ (List.Perm ghTopicA.topics ([] : List String)) ∧
    (ensureTopicsM "o" ⟨"r", none, none, none, none, [], []⟩ (some ghTopicA) false
      ⟨[], [ghTopicA]⟩).writes = [] := ⟨by decide, by decide⟩

/-- C5 amended: for a nonempty manifest label list, the sorted-sequence
comparison judges labels and topics equal exactly when they are equal as
multisets; equal multisets issue no call, different multisets issue exactly
one replace-all SetRepoTopics call carrying the sorted desired list (in apply
mode; dry-run never issues calls).  An empty label list issues no call
regardless (see the empty-labels theorem). -/
theorem topics_order_independence (orgName : String) (repo : Repository)
    (g : GhRepo) (dry : Bool) (s : RemoteState) (h : repo.labels ≠ []) :
    ((sortStrings g.topics = sortStrings repo.labels) ↔ g.topics.Perm repo.labels) ∧
    (g.topics.Perm repo.labels →
      (ensureTopicsM orgName repo (some g) dry s).writes = []) ∧
    (¬ g.topics.Perm repo.labels →
      (ensureTopicsM orgName repo (some g) dry s).writes =
        if dry then []
        else [Call.setRepoTopics orgName repo.name (sortStrings repo.labels)]) := by
  have hiff := sortStrings_eq_iff_perm g.topics repo.labels
  have hne : repo.labels.isEmpty = false := by
    cases hl : repo.labels with
    | nil => exact absurd hl h
    | cons a l => rfl
  refine ⟨hiff, ?_, ?_⟩
  · intro hp
    have hs : sortStrings g.topics = sortStrings repo.labels := hiff.mpr hp
    simp [ensureTopicsM, hne, hs]
  · intro hp
    have hs : ¬ sortStrings g.topics = sortStrings repo.labels :=
      fun hc => hp (hiff.mp hc)
    cases dry with
    | true => simp [ensureTopicsM, hne, hs]
    | false => simp [ensureTopicsM, hne, hs]

theorem topics_order_independence_witness :
    (sortStrings (GhRepo.topics ⟨"r", "", false, false, "", ["a", "b"], []⟩) =
      sortStrings ["b", "a"] ↔
      (GhRepo.topics ⟨"r", "", false, false, "", ["a", "b"], []⟩).Perm ["b", "a"]) ∧
    (ensureTopicsM "o" ⟨"r", none, none, none, none, ["b", "a"], []⟩
      (some ⟨"r", "", false, false, "", ["a", "b"], []⟩) false sLabels).writes = [] := by
  have hth := topics_order_independence "o" ⟨"r", none, none, none, none, ["b", "a"], []⟩
    ⟨"r", "", false, false, "", ["a", "b"], []⟩ false sLabels (by decide)
  exact ⟨hth.1, hth.2.1 (by decide)⟩

/-! ## C8: membership diff -/

theorem mem_missingMembers (gms : List String) :
    ∀ (ms : List People) (p : People),
      p ∈ missingMembers ms gms ↔
        p ∈ ms ∧ ∀ l ∈ gms, eqFold p.username l = false := by
  intro ms
  induction ms with
  | nil => intro p; simp [missingMembers]
  | cons mm rest ih =>
    intro p
    by_cases hm : gms.any (fun gl => eqFold mm.username gl) = true
    · rw [missingMembers, if_pos hm, ih p]
      constructor
      · intro ⟨h1, h2⟩
        exact ⟨List.mem_cons_of_mem mm h1, h2⟩
      · rintro ⟨h1, h2⟩
        rcases List.mem_cons.mp h1 with h1 | h1
        · subst h1
          obtain ⟨l, hl, he⟩ := List.any_eq_true.mp hm
          rw [h2 l hl] at he
          cases he
        · exact ⟨h1, h2⟩
    · rw [missingMembers, if_neg hm]
      have hall : ∀ l ∈ gms, eqFold mm.username l = false := by
        intro l hl
        cases he : eqFold mm.username l with
        | false => rfl
        | true => exact absurd (List.any_eq_true.mpr ⟨l, hl, he⟩) hm
      constructor
      · intro h
        rcases List.mem_cons.mp h with h | h
        · rw [h]; exact ⟨List.mem_cons_self mm rest, hall⟩
        · obtain ⟨h1, h2⟩ := (ih p).mp h
          exact ⟨List.mem_cons_of_mem mm h1, h2⟩
      · rintro ⟨h1, h2⟩
        rcases List.mem_cons.mp h1 with h1 | h1
        · rw [h1]; exact List.mem_cons_self mm (missingMembers rest gms)
        · exact List.mem_cons_of_mem mm ((ih p).mpr ⟨h1, h2⟩)

/-- C8: comparing logins case-insensitively, membersRun reports one line per
remote member (a managed info line when some manifest member matches, an
unmanaged warning otherwise, with no corrective action), then queues exactly
one invitation per manifest member with no remote match; matched members
trigger no action, and every write the member reconciler can issue is an
invitation (there is no removal call). -/
theorem membership_diff (org : Organization) (dry : Bool) (s : RemoteState) :
    ((membersRunM org dry s).reports =
      s.members.map (memberReport org.people) ++
        (missingMembers org.people s.members).map (fun m => Report.inviteR dry m.name)) ∧
    ((membersRunM org dry s).writes =
      if dry then []
      else (missingMembers org.people s.members).map
        (fun m => Call.inviteMember org.name m.name)) ∧
    (∀ l, managedMember org.people l = true ↔
      ∃ p, p ∈ org.people ∧ eqFold p.username l = true) ∧
    (∀ p, p ∈ missingMembers org.people s.members ↔
      p ∈ org.people ∧ ∀ l ∈ s.members, eqFold p.username l = false) ∧
    (∀ w ∈ (membersRunM org dry s).writes, ∃ n, w = Call.inviteMember org.name n) := by
  refine ⟨?_, ?_, ?_, ?_, ?_⟩
  · cases dry with
    | true => simp [membersRunM, inviteMembersM]
    | false => simp [membersRunM, inviteMembersM]
  · cases dry with
    | true => simp [membersRunM, inviteMembersM]
    | false => simp [membersRunM, inviteMembersM]
  · intro l
    rw [managedMember, List.any_eq_true]
  · exact mem_missingMembers s.members org.people
  · intro w hw
    cases dry with
    | true =>
      simp [membersRunM, inviteMembersM] at hw
    | false =>
      simp only [membersRunM, inviteMembersM, if_neg (by decide : ¬ false = true)] at hw
      obtain ⟨m, _, hm⟩ := List.mem_map.mp hw
      exact ⟨m.name, hm.symm⟩

theorem membership_diff_witness :
    ((membersRunM orgAliceBob false sBobCarol).reports =
      sBobCarol.members.map (memberReport orgAliceBob.people) ++
        (missingMembers orgAliceBob.people sBobCarol.members).map
          (fun m => Report.inviteR false m.name)) ∧
    (∃ n, Call.inviteMember "o" "alice" = Call.inviteMember orgAliceBob.name n) ∧
    (membersRunM orgAliceBob false sBobCarol).reports =
      [Report.memberManaged "bob", Report.memberUnmanaged "carol",
        Report.inviteR false "alice"] :=
  ⟨(membership_diff orgAliceBob false sBobCarol).1,
   (membership_diff orgAliceBob false sBobCarol).2.2.2.2
     (Call.inviteMember "o" "alice") (by decide),
   by decide⟩

/-! ## C6: pagination with archived filtering -/

theorem getReposLoop_chain (lp : Nat → PageResp) :
    ∀ (fuel page : Nat) (acc : List PagedRepo) (pages : List (List PagedRepo)),
      chainFrom lp fuel page = some pages →
      getReposLoop lp fuel page acc =
        some (pages.length,
          .ok (acc ++ (pages.map (fun pg => pg.filter (fun r => !r.archived))).flatten)) := by
  intro fuel
  induction fuel with
  | zero => intro page acc pages h; simp [chainFrom] at h
  | succ fuel ih =>
    intro page acc pages h
    cases hlp : lp page with
    | ok rs np =>
      rw [chainFrom] at h
      simp only [hlp] at h
      by_cases hnp : np = 0
      · rw [if_pos hnp] at h
        cases h
        simp [getReposLoop, hlp, hnp]
      · rw [if_neg hnp] at h
        cases hc : chainFrom lp fuel np with
        | none => rw [hc] at h; cases h
        | some pages2 =>
          rw [hc] at h
          cases h
          rw [getReposLoop]
          simp only [hlp, if_neg hnp, ih np _ pages2 hc, Option.map_some]
          simp [List.append_assoc]
    | rateLimited =>
      rw [chainFrom] at h
      simp only [hlp] at h
      exact Option.noConfusion h
    | otherErr =>
      rw [chainFrom] at h
      simp only [hlp] at h
      exact Option.noConfusion h

/-- C6: with the account probe succeeding, a public+private repository count
of zero short-circuits GetRepos with the no-repositories signal and zero
page-listing calls; otherwise, whenever the provider serves a terminating
chain of pages from page 0, GetRepos pages until the provider reports no
further page, performs exactly one page-listing call per page of the chain,
and returns the concatenation of the pages with every archived repository
removed. -/
theorem getRepos_pagination (p : ReposProvider) (fuel pub priv : Nat)
    (pages : List (List PagedRepo)) (horg : p.orgResp = .ok pub priv) :
    (pub + priv = 0 → getReposG p fuel = some (0, .error .noReposFound)) ∧
    (0 < pub + priv → chainFrom p.listOrgPage fuel 0 = some pages →
      getReposG p fuel =
        some (pages.length,
          .ok ((pages.map (fun pg => pg.filter (fun r => !r.archived))).flatten))) := by
  constructor
  · intro h0
    rw [getReposG]
    simp only [horg]
    rw [if_pos (by omega)]
  · intro hpos hc
    rw [getReposG]
    simp only [horg]
    rw [if_neg (by omega)]
    simpa using getReposLoop_chain p.listOrgPage fuel 0 [] pages hc

set_option maxRecDepth 4000 in
theorem getRepos_pagination_witness :
    getReposG prov0 10 = some (0, .error .noReposFound) ∧
    getReposG prov250 10 =
      some (pages250.length,
        .ok ((pages250.map (fun pg => pg.filter (fun r => !r.archived))).flatten)) ∧
    pages250.length = (250 + 99) / 100 ∧
    ((pages250.map (fun pg => pg.filter (fun r => !r.archived))).flatten).length = 250 ∧
    (∀ r ∈ (pages250.map (fun pg => pg.filter (fun r => !r.archived))).flatten,
      r.archived = false) :=
  ⟨(getRepos_pagination prov0 10 0 0 [] rfl).1 rfl,
   (getRepos_pagination prov250 10 250 0 pages250 rfl).2 (by decide) (by rfl),
   by decide, by decide, by decide⟩

/-! ## C7: rate-limit fatality -/

/-- C7: every modelled Gateway operation fails immediately when the provider
signals a rate limit: the single-shot operations perform exactly their one
provider call and return the rate-limit error, GetRepos aborts before any
page-listing call when the account probe is rate limited, and the paging loop
stops with the rate-limit error after exactly the one rate-limited page call,
never re-requesting it.  There is no retry or backoff path. -/
theorem rate_limit_fatal :
    (∀ resp : CallResp GhRepo, resp = .rateLimited →
      getRepoG resp = (1, .error .hitRateLimit)) ∧
    (∀ resp : CallResp (List String), resp = .rateLimited →
      getRepoTopicsG resp = (1, .error .hitRateLimit)) ∧
    (∀ resp : CallResp (List String), resp = .rateLimited →
      getBranchesG resp = (1, .error .hitRateLimit)) ∧
    (∀ resp : CallResp GhProt, resp = .rateLimited →
      getBranchProtectionG resp = (1, .error .hitRateLimit)) ∧
    (∀ resp : CallResp GhProt, resp = .rateLimited →
      isBranchProtectedG resp = (1, .error .hitRateLimit)) ∧
    (∀ resp : CallResp Nat, resp = .rateLimited →
      getOrgG resp = (1, .error .hitRateLimit)) ∧
    (∀ resp : CallResp (List String), resp = .rateLimited →
      getMembersG resp = (1, .error .hitRateLimit)) ∧
    (∀ (p : ReposProvider) (fuel : Nat), p.orgResp = .rateLimited →
      getReposG p fuel = some (0, .error .hitRateLimit)) ∧
    (∀ (p : ReposProvider) (fuel : Nat), p.orgResp = .notFound →
      p.userResp = .rateLimited → getReposG p fuel = some (0, .error .hitRateLimit)) ∧
    (∀ (lp : Nat → PageResp) (fuel page : Nat) (acc : List PagedRepo),
      lp page = .rateLimited →
      getReposLoop lp (fuel + 1) page acc = some (1, .error .hitRateLimit)) := by
  refine ⟨?_, ?_, ?_, ?_, ?_, ?_, ?_, ?_, ?_, ?_⟩
  · rintro resp rfl; rfl
  · rintro resp rfl; rfl
  · rintro resp rfl; rfl
  · rintro resp rfl; rfl
  · rintro resp rfl; rfl
  · rintro resp rfl; rfl
  · rintro resp rfl; rfl
  · intro p fuel h; rw [getReposG]; simp only [h]
  · intro p fuel h1 h2; rw [getReposG]; simp only [h1, h2]
  · intro lp fuel page acc h; rw [getReposLoop]; simp only [h]

theorem rate_limit_fatal_witness :
    getRepoG .rateLimited = (1, .error .hitRateLimit) ∧
    getReposG provRL 10 = some (0, .error .hitRateLimit) ∧
    getReposLoop (fun _ => PageResp.rateLimited) 10 0 [] =
      some (1, .error .hitRateLimit) :=
  ⟨rate_limit_fatal.1 .rateLimited rfl,
   rate_limit_fatal.2.2.2.2.2.2.2.1 provRL 10 rfl,
   rate_limit_fatal.2.2.2.2.2.2.2.2.2 (fun _ => PageResp.rateLimited) 9 0 [] rfl⟩

/-! ## Equation lemmas for ensureRepoM

Three shapes, by lookup result and label list: found (the topics step cannot
abort, since ghr is non-nil), absent with an empty label list (the topics
step returns immediately and the run proceeds to the branch phase), and
absent with a non-empty label list (the nil-dereference panic ends the
repository step right after the create and edit reports, in either mode). -/

theorem topics_some_noerr (o : String) (r : Repository) (g : GhRepo) (dry : Bool)
    (s : RemoteState) : (ensureTopicsM o r (some g) dry s).err = none := by
  by_cases hl : r.labels.isEmpty
  · simp [ensureTopicsM, hl]
  · by_cases he : sortStrings g.topics = sortStrings r.labels
    · simp [ensureTopicsM, hl, he]
    · cases dry with
      | true => simp [ensureTopicsM, hl, he]
      | false => simp [ensureTopicsM, hl, he]

theorem ensureRepo_found_dry_eq (o : String) (r : Repository) (sd : RemoteState)
    (g : GhRepo) (hg : getRepoS sd r.name = some g) :
    ensureRepoM o r true sd =
      ⟨editReports true (computeEdits r (some g)) ++
         ((ensureTopicsM o r (some g) true sd).reports ++
          (branchesLoop o r.name true r.protectedBranches
            (ensureTopicsM o r (some g) true sd).state).reports),
       (ensureTopicsM o r (some g) true sd).writes ++
         (branchesLoop o r.name true r.protectedBranches
           (ensureTopicsM o r (some g) true sd).state).writes,
       (branchesLoop o r.name true r.protectedBranches
         (ensureTopicsM o r (some g) true sd).state).err,
       (ensureTopicsM o r (some g) true sd).repo,
       (branchesLoop o r.name true r.protectedBranches
         (ensureTopicsM o r (some g) true sd).state).state⟩ := by
  rw [ensureRepoM]
  simp [hg, topics_some_noerr]

theorem ensureRepo_found_apply_eq (o : String) (r : Repository) (sa : RemoteState)
    (g : GhRepo) (hg : getRepoS sa r.name = some g) :
    ensureRepoM o r false sa =
      ⟨editReports false (computeEdits r (some g)) ++
         ((ensureTopicsM o r (some g) false
            (modifyRepoS sa r.name (applyEdits (computeEdits r (some g))))).reports ++
          (branchesLoop o r.name false r.protectedBranches
            (ensureTopicsM o r (some g) false
              (modifyRepoS sa r.name (applyEdits (computeEdits r (some g))))).state).reports),
       Call.updateRepo o r.name (computeEdits r (some g)) ::
         ((ensureTopicsM o r (some g) false
            (modifyRepoS sa r.name (applyEdits (computeEdits r (some g))))).writes ++
          (branchesLoop o r.name false r.protectedBranches
            (ensureTopicsM o r (some g) false
              (modifyRepoS sa r.name (applyEdits (computeEdits r (some g))))).state).writes),
       (branchesLoop o r.name false r.protectedBranches
         (ensureTopicsM o r (some g) false
           (modifyRepoS sa r.name (applyEdits (computeEdits r (some g))))).state).err,
       (ensureTopicsM o r (some g) false
         (modifyRepoS sa r.name (applyEdits (computeEdits r (some g))))).repo,
       (branchesLoop o r.name false r.protectedBranches
         (ensureTopicsM o r (some g) false
           (modifyRepoS sa r.name (applyEdits (computeEdits r (some g))))).state).state⟩ := by
  rw [ensureRepoM]
  simp [hg, topics_some_noerr]

theorem ensureRepo_none_dry_eq (o : String) (r : Repository) (sd : RemoteState)
    (hg : getRepoS sd r.name = none) (hl : r.labels.isEmpty = true) :
    ensureRepoM o r true sd =
      ⟨createReports true (createState r) ++
         (editReports true (computeEdits r none) ++
          (branchesLoop o r.name true r.protectedBranches sd).reports),
       (branchesLoop o r.name true r.protectedBranches sd).writes,
       (branchesLoop o r.name true r.protectedBranches sd).err,
       r,
       (branchesLoop o r.name true r.protectedBranches sd).state⟩ := by
  rw [ensureRepoM]
  simp [hg, createRepoM, ensureTopicsM, hl]

theorem ensureRepo_none_apply_eq (o : String) (r : Repository) (sa : RemoteState)
    (hg : getRepoS sa r.name = none) (hl : r.labels.isEmpty = true) :
    ensureRepoM o r false sa =
      ⟨createReports false (createState r) ++
         (editReports false (computeEdits r none) ++
          (branchesLoop o r.name false r.protectedBranches
            (modifyRepoS (createRepoS sa (ghRepoOfCreate (createState r))) r.name
              (applyEdits (computeEdits r none)))).reports),
       Call.createRepo o (createState r) ::
         Call.updateRepo o r.name (computeEdits r none) ::
         (branchesLoop o r.name false r.protectedBranches
           (modifyRepoS (createRepoS sa (ghRepoOfCreate (createState r))) r.name
             (applyEdits (computeEdits r none)))).writes,
       (branchesLoop o r.name false r.protectedBranches
         (modifyRepoS (createRepoS sa (ghRepoOfCreate (createState r))) r.name
           (applyEdits (computeEdits r none)))).err,
       r,
       (branchesLoop o r.name false r.protectedBranches
         (modifyRepoS (createRepoS sa (ghRepoOfCreate (createState r))) r.name
           (applyEdits (computeEdits r none)))).state⟩ := by
  rw [ensureRepoM]
  simp [hg, createRepoM, ensureTopicsM, hl]

theorem ensureRepo_crash_dry_eq (o : String) (r : Repository) (sd : RemoteState)
    (hg : getRepoS sd r.name = none) (hl : r.labels.isEmpty = false) :
    ensureRepoM o r true sd =
      ⟨createReports true (createState r) ++ editReports true (computeEdits r none),
       [], some Err.nilPointerDereference, r, sd⟩ := by
  rw [ensureRepoM]
  simp [hg, createRepoM, ensureTopicsM, hl]

theorem ensureRepo_crash_apply_eq (o : String) (r : Repository) (sa : RemoteState)
    (hg : getRepoS sa r.name = none) (hl : r.labels.isEmpty = false) :
    ensureRepoM o r false sa =
      ⟨createReports false (createState r) ++ editReports false (computeEdits r none),
       [Call.createRepo o (createState r),
        Call.updateRepo o r.name (computeEdits r none)],
       some Err.nilPointerDereference, r,
       modifyRepoS (createRepoS sa (ghRepoOfCreate (createState r))) r.name
         (applyEdits (computeEdits r none))⟩ := by
  rw [ensureRepoM]
  simp [hg, createRepoM, ensureTopicsM, hl]

/-! ## C4: create-then-update (corrected) -/

/-- C4 counterexample: on a not-found lookup the repository is created with
the full desired projection, but the created object is not treated as the new
current state: the update path compares against a zero-valued remote, so for
a manifest that sets description x the subsequently computed patch is not
empty and a second, update write is issued. -/
theorem create_then_update_cex :
    getRepoS sEmpty "r" = none ∧
    (ensureRepoM "o" repoDescr false sEmpty).writes =
      [Call.createRepo "o" (createState repoDescr),
       Call.updateRepo "o" "r" ⟨some "x", none, none, none⟩] ∧
    computeEdits repoDescr none ≠ emptyEdits :=
  ⟨by decide, by decide, by decide⟩

/-- C4 amended: on a not-found lookup, reconciliation creates the repository
with the full desired projection in one call, but then continues into the
update path comparing against a zero-valued remote (the looked-up nil object,
not the created one), so a second UpdateRepo call always follows, carrying
the patch computed against the zero values; that patch is empty exactly when
every set manifest field folds to the provider zero value.  Immediately after,
for a non-empty label list, the topics step dereferences the same nil lookup
result and the run aborts with the nil-pointer panic, so no set-topics call is
ever issued on the create path; with an empty label list the topics step is
skipped and the run continues without error. -/
theorem create_then_update (orgName : String) (repo : Repository) (s : RemoteState)
    (h : getRepoS s repo.name = none) (hb : repo.protectedBranches = []) :
    ((ensureRepoM orgName repo false s).writes =
      [Call.createRepo orgName (createState repo),
       Call.updateRepo orgName repo.name (computeEdits repo none)]) ∧
    ((ensureRepoM orgName repo false s).err =
      if repo.labels.isEmpty then none else some Err.nilPointerDereference) ∧
    (computeEdits repo none = emptyEdits ↔
      ((∀ d, repo.description = some d → eqFold "" d = true) ∧
       (∀ a, repo.archived = some a → a = false) ∧
       (∀ p, repo.priv = some p → p = false) ∧
       (∀ v, repo.defaultBranch = some v → eqFold "" v = true))) := by
  refine ⟨?_, ?_, ?_⟩
  · cases hl : repo.labels.isEmpty with
    | false => rw [ensureRepo_crash_apply_eq orgName repo s h hl]
    | true =>
      rw [ensureRepo_none_apply_eq orgName repo s h hl]
      simp [hb, branchesLoop]
  · cases hl : repo.labels.isEmpty with
    | false =>
      rw [ensureRepo_crash_apply_eq orgName repo s h hl]
      simp [hl]
    | true =>
      rw [ensureRepo_none_apply_eq orgName repo s h hl]
      simp [hb, branchesLoop, hl]
  · constructor
    · intro he
      have h1 := congrArg Edits.description he
      have h2 := congrArg Edits.archived he
      have h3 := congrArg Edits.priv he
      have h4 := congrArg Edits.defaultBranch he
      simp only [computeEdits, emptyEdits] at h1 h2 h3 h4
      refine ⟨?_, ?_, ?_, ?_⟩
      · intro d hd
        simp only [hd] at h1
        by_cases hf : eqFold (descrOf none) d = true
        · simpa using hf
        · rw [if_neg hf] at h1; cases h1
      · intro a ha
        simp only [ha] at h2
        by_cases hf : archivedOf none = a
        · rw [← hf]; rfl
        · rw [if_neg hf] at h2; cases h2
      · intro p hp
        simp only [hp] at h3
        by_cases hf : privOf none = p
        · rw [← hf]; rfl
        · rw [if_neg hf] at h3; cases h3
      · intro v hv
        simp only [hv] at h4
        by_cases hf : eqFold (defaultBranchOf none) v = true
        · simpa using hf
        · rw [if_neg hf] at h4; cases h4
    · rintro ⟨h1, h2, h3, h4⟩
      have e1 : (computeEdits repo none).description = none := by
        cases hd : repo.description with
        | none => simp [computeEdits, hd]
        | some d => simpa [computeEdits, hd] using h1 d hd
      have e2 : (computeEdits repo none).archived = none := by
        cases ha : repo.archived with
        | none => simp [computeEdits, ha]
        | some a =>
          have : archivedOf none = a := by rw [h2 a ha]; rfl
          simp [computeEdits, ha, this]
      have e3 : (computeEdits repo none).priv = none := by
        cases hp : repo.priv with
        | none => simp [computeEdits, hp]
        | some p =>
          have : privOf none = p := by rw [h3 p hp]; rfl
          simp [computeEdits, hp, this]
      have e4 : (computeEdits repo none).defaultBranch = none := by
        cases hv : repo.defaultBranch with
        | none => simp [computeEdits, hv]
        | some v => simpa [computeEdits, hv] using h4 v hv
      cases hE : computeEdits repo none
      rw [hE] at e1 e2 e3 e4
      simp only at e1 e2 e3 e4
      rw [emptyEdits, e1, e2, e3, e4]

theorem create_then_update_witness :
    ((ensureRepoM "o" ⟨"r", some "", some false, none, none, ["t"], []⟩ false
        sEmpty).writes =
      [Call.createRepo "o" (createState ⟨"r", some "", some false, none, none, ["t"], []⟩),
       Call.updateRepo "o" "r"
         (computeEdits ⟨"r", some "", some false, none, none, ["t"], []⟩ none)]) ∧
    ((ensureRepoM "o" ⟨"r", some "", some false, none, none, ["t"], []⟩ false
        sEmpty).err =
      if (["t"] : List String).isEmpty then none else some Err.nilPointerDereference) ∧
    computeEdits ⟨"r", some "", some false, none, none, ["t"], []⟩ none = emptyEdits :=
 by
  refine ⟨(create_then_update "o" ⟨"r", some "", some false, none, none, ["t"], []⟩ sEmpty
      (by decide) rfl).1,
    (create_then_update "o" ⟨"r", some "", some false, none, none, ["t"], []⟩ sEmpty
      (by decide) rfl).2.1,
    (create_then_update "o" ⟨"r", some "", some false, none, none, ["t"], []⟩ sEmpty
      (by decide) rfl).2.2.mpr ⟨?_, ?_, ?_, ?_⟩⟩
  · intro d hd; cases hd; decide
  · intro a ha; cases ha; rfl
  · intro p hp; cases hp
  · intro v hv; cases hv

/-! ## C9: manifest immutability (corrected) -/

/-- C9 counterexample: a dry run against a matching remote reorders the single
repository label list from [b, a] to [a, b] (ensureTopics sorts the manifest
label slice in place), so the manifest object is not left unchanged. -/
theorem manifest_immutability_cex :
    (runAll orgLabels true sLabels).org ≠ orgLabels ∧
    (runAll orgLabels true sLabels).org.repositories.map Repository.labels = [["a", "b"]] ∧
    orgLabels.repositories.map Repository.labels = [["b", "a"]] :=
  ⟨by decide, by decide, by decide⟩

theorem repo_eta (r : Repository) : { r with labels := r.labels } = r := by
  cases r; rfl

theorem ensureRepoM_repo (orgName : String) (repo : Repository) (ghr : Option GhRepo)
    (dry : Bool) (s : RemoteState) :
    (ensureTopicsM orgName repo ghr dry s).repo.labels.Perm repo.labels ∧
    (ensureTopicsM orgName repo ghr dry s).repo =
      { repo with labels := (ensureTopicsM orgName repo ghr dry s).repo.labels } := by
  by_cases hl : repo.labels.isEmpty
  · simp [ensureTopicsM, hl, repo_eta]
  · cases ghr with
    | none => simp [ensureTopicsM, hl, repo_eta]
    | some g =>
      have hperm : (sortStrings repo.labels).Perm repo.labels :=
        List.perm_insertionSort strLeP repo.labels
      by_cases he : sortStrings g.topics = sortStrings repo.labels
      · simp [ensureTopicsM, hl, he, hperm]
      · cases dry with
        | true => simp [ensureTopicsM, hl, he, hperm]
        | false => simp [ensureTopicsM, hl, he, hperm]

theorem ensureRepoM_repo_full (orgName : String) (repo : Repository) (dry : Bool)
    (s : RemoteState) :
    (ensureRepoM orgName repo dry s).repo.labels.Perm repo.labels ∧
    (ensureRepoM orgName repo dry s).repo =
      { repo with labels := (ensureRepoM orgName repo dry s).repo.labels } := by
  rw [ensureRepoM]
  exact ensureRepoM_repo orgName repo (getRepoS s repo.name) dry
    (if dry then
      (match getRepoS s repo.name with
        | none => createRepoM orgName repo dry s
        | some _ => ⟨[], [], s⟩ : CreateOut).state
     else _)

theorem reposLoop_repos (orgName : String) (dry : Bool) :
    ∀ (rs : List Repository) (s : RemoteState),
      List.Forall₂
        (fun r r2 => r2.labels.Perm r.labels ∧ r2 = { r with labels := r2.labels })
        rs (reposLoop orgName dry rs s).repos := by
  intro rs
  induction rs with
  | nil => intro s; rw [reposLoop]; exact List.Forall₂.nil
  | cons r rs ih =>
    intro s
    rw [reposLoop]
    cases he : (ensureRepoM orgName r dry s).err with
    | some e =>
      simp only [he]
      refine List.Forall₂.cons ⟨(ensureRepoM_repo_full orgName r dry s).1,
        (ensureRepoM_repo_full orgName r dry s).2⟩ ?_
      rw [List.forall₂_same]
      intro r2 _
      exact ⟨List.Perm.refl _, (repo_eta r2).symm⟩
    | none =>
      simp only [he]
      exact List.Forall₂.cons
        ⟨(ensureRepoM_repo_full orgName r dry s).1, (ensureRepoM_repo_full orgName r dry s).2⟩
        (ih _)

/-- C9 amended: reconciliation leaves the manifest name, member list, and
every repository field except the label list unchanged, but topic
reconciliation sorts each processed repository label list in place: the
resulting label list is a permutation of the original (its sorted image), not
necessarily the original order. -/
theorem manifest_mutation_bound (org : Organization) (dry : Bool) (s : RemoteState) :
    (runAll org dry s).org.name = org.name ∧
    (runAll org dry s).org.people = org.people ∧
    List.Forall₂
      (fun r r2 => r2.labels.Perm r.labels ∧ r2 = { r with labels := r2.labels })
      org.repositories (runAll org dry s).org.repositories :=
  ⟨rfl, rfl, reposLoop_repos org.name dry org.repositories s⟩

/-! ## C1: idempotence of a full apply run (corrected) -/

theorem applyEdits_empty (g : GhRepo) : applyEdits emptyEdits g = g := rfl

theorem modifyRepos_id (n : String) (f : GhRepo → GhRepo) :
    ∀ l : List GhRepo, (∀ g, findRepo l n = some g → f g = g) → modifyRepos l n f = l := by
  intro l
  induction l with
  | nil => intro _; rfl
  | cons r rs ih =>
    intro hf
    rw [modifyRepos]
    by_cases hr : r.name = n
    · rw [if_pos hr, hf r (by rw [findRepo, if_pos hr])]
    · rw [if_neg hr, ih]
      intro g hg
      exact hf g (by rw [findRepo, if_neg hr]; exact hg)

theorem modifyRepoS_id (s : RemoteState) (n : String) (f : GhRepo → GhRepo)
    (h : ∀ g, getRepoS s n = some g → f g = g) : modifyRepoS s n f = s := by
  rw [modifyRepoS, modifyRepos_id n f s.repos h]

theorem computeEdits_of_matches (r : Repository) (g : GhRepo)
    (h : repoMatchesB r g = true) : computeEdits r (some g) = emptyEdits := by
  simp only [repoMatchesB, Bool.and_eq_true] at h
  obtain ⟨⟨⟨⟨⟨hd, ha⟩, hp⟩, hv⟩, _⟩, _⟩ := h
  have e1 : (computeEdits r (some g)).description = none := by
    cases hrd : r.description with
    | none => simp [computeEdits, hrd]
    | some d =>
      simp only [hrd] at hd
      simp [computeEdits, hrd, descrOf, hd]
  have e2 : (computeEdits r (some g)).archived = none := by
    cases hra : r.archived with
    | none => simp [computeEdits, hra]
    | some a =>
      simp only [hra, decide_eq_true_eq] at ha
      simp [computeEdits, hra, archivedOf, ha]
  have e3 : (computeEdits r (some g)).priv = none := by
    cases hrp : r.priv with
    | none => simp [computeEdits, hrp]
    | some p =>
      simp only [hrp, decide_eq_true_eq] at hp
      simp [computeEdits, hrp, privOf, hp]
  have e4 : (computeEdits r (some g)).defaultBranch = none := by
    cases hrv : r.defaultBranch with
    | none => simp [computeEdits, hrv]
    | some v =>
      simp only [hrv] at hv
      simp [computeEdits, hrv, defaultBranchOf, hv]
  cases hE : computeEdits r (some g)
  rw [hE] at e1 e2 e3 e4
  simp only at e1 e2 e3 e4
  rw [emptyEdits, e1, e2, e3, e4]

theorem processBranch_matched (orgName rn : String) (b : Branch) (s : RemoteState)
    (g : GhRepo) (hg : getRepoS s rn = some g) (hb : branchMatchesB g b = true) :
    (processBranchM orgName rn b false s).writes =
      [Call.protectBranch orgName rn b.name (buildReq b)] ∧
    (processBranchM orgName rn b false s).err = none ∧
    (processBranchM orgName rn b false s).state = s := by
  rw [branchMatchesB] at hb
  cases hfp : findProt g.prot b.name with
  | none => rw [hfp] at hb; cases hb
  | some pr =>
    rw [hfp] at hb
    have hget : getProtS s rn b.name = some pr := by
      rw [getProtS]
      simp only [hg]
      exact hfp
    have hs1 : modifyRepoS s rn (ensureProtEntry b.name) = s := by
      apply modifyRepoS_id
      intro g2 hg2
      rw [hg] at hg2
      cases hg2
      rw [ensureProtEntry, hfp]
    rw [processBranchM, hget, updateBranchProtectionM]
    simp only [if_neg (by decide : ¬ false = true), hs1]
    cases hsc : b.protection.signedCommits with
    | none =>
      rw [ensureSignedCommitsM]
      simp only [hsc]
      simp
    | some sc =>
      rw [hsc] at hb
      simp only [decide_eq_true_eq] at hb
      rw [ensureSignedCommitsM]
      simp only [hsc, hget, if_pos hb]
      simp

theorem branchesLoop_matched (orgName rn : String) :
    ∀ (bs : List Branch) (s : RemoteState) (g : GhRepo),
      getRepoS s rn = some g → (∀ b ∈ bs, branchMatchesB g b = true) →
      (branchesLoop orgName rn false bs s).writes =
        bs.map (fun b => Call.protectBranch orgName rn b.name (buildReq b)) ∧
      (branchesLoop orgName rn false bs s).err = none ∧
      (branchesLoop orgName rn false bs s).state = s := by
  intro bs
  induction bs with
  | nil => intro s g _ _; exact ⟨rfl, rfl, rfl⟩
  | cons b bs ih =>
    intro s g hg hb
    obtain ⟨hw, he, hs⟩ := processBranch_matched orgName rn b s g hg
      (hb b (List.mem_cons_self b bs))
    obtain ⟨hw2, he2, hs2⟩ := ih s g hg (fun b2 hb2 => hb b2 (List.mem_cons_of_mem b hb2))
    rw [branchesLoop]
    simp only [he, hs, hw, hw2, he2, hs2, List.map_cons]
    simp

theorem ensureRepo_matched (orgName : String) (r : Repository) (s : RemoteState)
    (g : GhRepo) (hg : getRepoS s r.name = some g) (hm : repoMatchesB r g = true) :
    (ensureRepoM orgName r false s).writes =
      Call.updateRepo orgName r.name emptyEdits ::
        r.protectedBranches.map
          (fun b => Call.protectBranch orgName r.name b.name (buildReq b)) ∧
    (ensureRepoM orgName r false s).err = none ∧
    (ensureRepoM orgName r false s).state = s := by
  have hedits : computeEdits r (some g) = emptyEdits := computeEdits_of_matches r g hm
  have hs2 : modifyRepoS s r.name (applyEdits (computeEdits r (some g))) = s := by
    rw [hedits]
    exact modifyRepoS_id s r.name _ (fun g2 _ => applyEdits_empty g2)
  have hbs : ∀ b ∈ r.protectedBranches, branchMatchesB g b = true := by
    have := hm
    simp only [repoMatchesB, Bool.and_eq_true, List.all_eq_true] at this
    exact this.2
  have htop : (ensureTopicsM orgName r (some g) false s).writes = [] ∧
      (ensureTopicsM orgName r (some g) false s).err = none ∧
      (ensureTopicsM orgName r (some g) false s).state = s := by
    by_cases hl : r.labels.isEmpty
    · simp [ensureTopicsM, hl]
    · have hsort : sortStrings g.topics = sortStrings r.labels := by
        have := hm
        simp only [repoMatchesB, Bool.and_eq_true] at this
        have h5 := this.1.2
        rcases Bool.or_eq_true _ _ |>.mp h5 with h5 | h5
        · rw [h5] at hl; cases hl rfl
        · simpa using h5
      simp [ensureTopicsM, hl, hsort]
  rw [ensureRepoM]
  simp only [hg, hs2, htop.1, htop.2.1, htop.2.2, if_neg (by decide : ¬ false = true)]
  obtain ⟨hw, he, hst⟩ := branchesLoop_matched orgName r.name r.protectedBranches s g hg hbs
  simp only [hw, he, hst, hedits]
  simp

theorem reposLoop_matched (orgName : String) :
    ∀ (rs : List Repository) (s : RemoteState), reposMatchB s rs = true →
      (reposLoop orgName false rs s).writes =
        rs.flatMap (fun r =>
          Call.updateRepo orgName r.name emptyEdits ::
            r.protectedBranches.map
              (fun b => Call.protectBranch orgName r.name b.name (buildReq b))) ∧
      (reposLoop orgName false rs s).err = none ∧
      (reposLoop orgName false rs s).state = s := by
  intro rs
  induction rs with
  | nil => intro s _; exact ⟨rfl, rfl, rfl⟩
  | cons r rs ih =>
    intro s h
    simp only [reposMatchB, List.all_cons, Bool.and_eq_true] at h
    obtain ⟨h1, h2⟩ := h
    cases hg : getRepoS s r.name with
    | none =>
      simp only [hg] at h1
      simp at h1
    | some g =>
      simp only [hg] at h1
      obtain ⟨hw, he, hst⟩ := ensureRepo_matched orgName r s g hg h1
      obtain ⟨hw2, he2, hst2⟩ := ih s h2
      rw [reposLoop]
      simp only [he, hst, hw, hw2, he2, hst2, List.flatMap_cons]
      simp

theorem missingMembers_of_matched :
    ∀ (ms : List People) (gms : List String),
      ms.all (fun p => gms.any (fun l => eqFold p.username l)) = true →
      missingMembers ms gms = [] := by
  intro ms
  induction ms with
  | nil => intro gms _; rfl
  | cons mm rest ih =>
    intro gms h
    simp only [List.all_cons, Bool.and_eq_true] at h
    rw [missingMembers, if_pos h.1, ih gms h.2]

/-- C1 counterexample: the claim asserts zero write calls when the remote
already matches every field the manifest sets, but apply mode issues the
UpdateRepo call unconditionally (here with an empty patch), and reissues the
branch-protection update for every manifested protected branch whose
protection already exists and matches. -/
theorem apply_idempotence_cex :
    remoteMatchesB orgOneRepo sOneRepo = true ∧
    (runAll orgOneRepo false sOneRepo).writes = [Call.updateRepo "o" "r" emptyEdits] ∧
    remoteMatchesB orgSigned sSigned = true ∧
    (runAll orgSigned false sSigned).writes =
      [Call.updateRepo "o" "r" emptyEdits,
       Call.protectBranch "o" "r" "main" ⟨false, none⟩] :=
  ⟨by decide, by decide, by decide, by decide⟩

/-- C1 amended: against a remote state that already matches every field the
manifest sets, a full apply run errors nowhere, issues no create, no
set-topics, no signed-commit patch, and no invitation, but it is not
write-free: it issues exactly one UpdateRepo call (with an empty patch) per
manifest repository and one unconditional branch-protection update per
manifested protected branch. -/
theorem apply_second_run_writes (org : Organization) (s : RemoteState)
    (h : remoteMatchesB org s = true) :
    (runAll org false s).writes =
      org.repositories.flatMap (fun r =>
        Call.updateRepo org.name r.name emptyEdits ::
          r.protectedBranches.map
            (fun b => Call.protectBranch org.name r.name b.name (buildReq b))) ∧
    (runAll org false s).err = none ∧
    (∀ w ∈ (runAll org false s).writes,
      (∃ rn, w = Call.updateRepo org.name rn emptyEdits) ∨
      (∃ rn bn rq, w = Call.protectBranch org.name rn bn rq)) := by
  rw [remoteMatchesB, Bool.and_eq_true] at h
  obtain ⟨hmem, hrep⟩ := h
  obtain ⟨hw, he, _⟩ := reposLoop_matched org.name org.repositories s hrep
  have hmw : (membersRunM org false s).writes = [] := by
    rw [membersRunM]
    simp only [missingMembers_of_matched org.people s.members hmem, inviteMembersM]
    rw [if_neg (by decide : ¬ false = true)]
    simp
  refine ⟨?_, ?_, ?_⟩
  · show (membersRunM org false s).writes ++ (reposLoop org.name false org.repositories s).writes = _
    rw [hmw, hw, List.nil_append]
  · exact he
  · intro w hwm
    have : w ∈ (membersRunM org false s).writes ++
        (reposLoop org.name false org.repositories s).writes := hwm
    rw [hmw, hw, List.nil_append, List.mem_flatMap] at this
    obtain ⟨r, _, hin⟩ := this
    rcases List.mem_cons.mp hin with hin | hin
    · exact Or.inl ⟨r.name, hin⟩
    · obtain ⟨b, _, hb⟩ := List.mem_map.mp hin
      exact Or.inr ⟨r.name, b.name, buildReq b, hb.symm⟩

theorem apply_second_run_writes_witness :
    (runAll orgSigned false sSigned).writes =
      orgSigned.repositories.flatMap (fun r =>
        Call.updateRepo orgSigned.name r.name emptyEdits ::
          r.protectedBranches.map
            (fun b => Call.protectBranch orgSigned.name r.name b.name (buildReq b))) ∧
    (runAll orgSigned false sSigned).err = none :=
  ⟨(apply_second_run_writes orgSigned sSigned (by decide)).1,
   (apply_second_run_writes orgSigned sSigned (by decide)).2.1⟩

/-! ## C2: dry-run / apply parity — frame and purity lemmas -/

theorem findRepo_modifyRepos_ne (n m : String) (f : GhRepo → GhRepo)
    (hf : ∀ g, (f g).name = g.name) (hmn : m ≠ n) :
    ∀ l, findRepo (modifyRepos l n f) m = findRepo l m := by
  intro l
  induction l with
  | nil => rfl
  | cons r rs ih =>
    rw [modifyRepos]
    by_cases hr : r.name = n
    · rw [if_pos hr, findRepo, findRepo]
      rw [if_neg (show ¬ (f r).name = m by rw [hf r, hr]; exact fun hc => hmn hc.symm)]
      rw [if_neg (show ¬ r.name = m by rw [hr]; exact fun hc => hmn hc.symm)]
    · rw [if_neg hr, findRepo, findRepo]
      by_cases hm : r.name = m
      · rw [if_pos hm, if_pos hm]
      · rw [if_neg hm, if_neg hm, ih]

theorem findRepo_modifyRepos_self (n : String) (f : GhRepo → GhRepo)
    (hf : ∀ g, (f g).name = g.name) :
    ∀ l, findRepo (modifyRepos l n f) n = (findRepo l n).map f := by
  intro l
  induction l with
  | nil => rfl
  | cons r rs ih =>
    rw [modifyRepos]
    by_cases hr : r.name = n
    · rw [if_pos hr, findRepo, if_pos (by rw [hf r]; exact hr), findRepo, if_pos hr]
      rfl
    · rw [if_neg hr, findRepo, if_neg hr, findRepo, if_neg hr, ih]

theorem getRepoS_modify_ne (s : RemoteState) (n : String) (f : GhRepo → GhRepo)
    (hf : ∀ g, (f g).name = g.name) (m : String) (hmn : m ≠ n) :
    getRepoS (modifyRepoS s n f) m = getRepoS s m :=
  findRepo_modifyRepos_ne n m f hf hmn s.repos

theorem getRepoS_modify_self (s : RemoteState) (n : String) (f : GhRepo → GhRepo)
    (hf : ∀ g, (f g).name = g.name) :
    getRepoS (modifyRepoS s n f) n = (getRepoS s n).map f :=
  findRepo_modifyRepos_self n f hf s.repos

theorem findRepo_append (g : GhRepo) (m : String) :
    ∀ l, findRepo (l ++ [g]) m =
      match findRepo l m with
      | some r => some r
      | none => if g.name = m then some g else none := by
  intro l
  induction l with
  | nil => rfl
  | cons r rs ih =>
    rw [List.cons_append, findRepo, findRepo]
    by_cases hm : r.name = m
    · rw [if_pos hm, if_pos hm]
    · rw [if_neg hm, if_neg hm, ih]

theorem getRepoS_create_ne (s : RemoteState) (g : GhRepo) (m : String)
    (hm : g.name ≠ m) : getRepoS (createRepoS s g) m = getRepoS s m := by
  show findRepo (s.repos ++ [g]) m = findRepo s.repos m
  rw [findRepo_append]
  cases findRepo s.repos m with
  | some r => rfl
  | none => rw [if_neg hm]

theorem getRepoS_create_self (s : RemoteState) (g : GhRepo)
    (h : getRepoS s g.name = none) : getRepoS (createRepoS s g) g.name = some g := by
  show findRepo (s.repos ++ [g]) g.name = some g
  rw [findRepo_append]
  rw [getRepoS] at h
  rw [h, if_pos rfl]

theorem getProtS_congr (s1 s2 : RemoteState) (rn : String)
    (h : getRepoS s1 rn = getRepoS s2 rn) (bn : String) :
    getProtS s1 rn bn = getProtS s2 rn bn := by
  rw [getProtS, getProtS, h]

theorem getProtS_modify_ne (s : RemoteState) (n : String) (f : GhRepo → GhRepo)
    (hf : ∀ g, (f g).name = g.name) (m : String) (hmn : m ≠ n) (bn : String) :
    getProtS (modifyRepoS s n f) m bn = getProtS s m bn :=
  getProtS_congr _ _ m (getRepoS_modify_ne s n f hf m hmn) bn

theorem getProtS_modify_protpres (s : RemoteState) (n : String) (f : GhRepo → GhRepo)
    (hfn : ∀ g, (f g).name = g.name) (hfp : ∀ g, (f g).prot = g.prot) (bn : String) :
    getProtS (modifyRepoS s n f) n bn = getProtS s n bn := by
  rw [getProtS, getProtS, getRepoS_modify_self s n f hfn]
  cases getRepoS s n with
  | none => rfl
  | some g => show findProt (f g).prot bn = findProt g.prot bn; rw [hfp g]

theorem findProt_append (e0 : String × GhProt) (bn2 : String) :
    ∀ l, findProt (l ++ [e0]) bn2 =
      match findProt l bn2 with
      | some p => some p
      | none => if e0.fst = bn2 then some e0.snd else none := by
  intro l
  induction l with
  | nil => rfl
  | cons e es ih =>
    rw [List.cons_append, findProt, findProt]
    by_cases hm : e.fst = bn2
    · rw [if_pos hm, if_pos hm]
    · rw [if_neg hm, if_neg hm, ih]

theorem findProt_setProtEntry_ne (bn bn2 : String) (h : bn2 ≠ bn) :
    ∀ l, findProt (setProtEntry l bn) bn2 = findProt l bn2 := by
  intro l
  induction l with
  | nil => rfl
  | cons e es ih =>
    rw [setProtEntry]
    by_cases he : e.fst = bn
    · rw [if_pos he, findProt, findProt]
      rw [if_neg (show ¬ (e.fst, (⟨true⟩ : GhProt)).fst = bn2 by
        show ¬ e.fst = bn2
        rw [he]; exact fun hc => h hc.symm)]
      rw [if_neg (show ¬ e.fst = bn2 by rw [he]; exact fun hc => h hc.symm)]
    · rw [if_neg he, findProt, findProt]
      by_cases hm : e.fst = bn2
      · rw [if_pos hm, if_pos hm]
      · rw [if_neg hm, if_neg hm, ih]

theorem ensureProtEntry_name (bn : String) (g : GhRepo) :
    (ensureProtEntry bn g).name = g.name := by
  rw [ensureProtEntry]
  cases findProt g.prot bn <;> rfl

theorem setSigEntry_name (bn : String) (g : GhRepo) :
    (setSigEntry bn g).name = g.name := rfl

theorem findProt_ensureProtEntry_ne (bn bn2 : String) (h : bn2 ≠ bn) (g : GhRepo) :
    findProt (ensureProtEntry bn g).prot bn2 = findProt g.prot bn2 := by
  rw [ensureProtEntry]
  cases hfp : findProt g.prot bn with
  | some p => rfl
  | none =>
    show findProt (g.prot ++ [(bn, ⟨false⟩)]) bn2 = _
    rw [findProt_append]
    cases findProt g.prot bn2 with
    | some p => rfl
    | none => rw [if_neg (fun hc => h hc.symm)]

theorem findProt_ensureProtEntry_found (bn : String) (g : GhRepo) (p : GhProt)
    (h : findProt g.prot bn = some p) : ensureProtEntry bn g = g := by
  rw [ensureProtEntry, h]

theorem findProt_ensureProtEntry_new (bn : String) (g : GhRepo)
    (h : findProt g.prot bn = none) :
    findProt (ensureProtEntry bn g).prot bn = some ⟨false⟩ := by
  rw [ensureProtEntry, h]
  show findProt (g.prot ++ [(bn, ⟨false⟩)]) bn = _
  rw [findProt_append, h, if_pos rfl]

theorem sc_dry_pure (o rn : String) (b : Branch) (sd : RemoteState) :
    (ensureSignedCommitsM o rn b true sd).state = sd ∧
    (ensureSignedCommitsM o rn b true sd).writes = [] := by
  cases hsc : b.protection.signedCommits with
  | none => simp [ensureSignedCommitsM, hsc]
  | some sc =>
    cases hgp : getProtS sd rn b.name with
    | none => simp [ensureSignedCommitsM, hsc, hgp]
    | some p =>
      by_cases hp : p.requiredSignaturesEnabled = sc
      · simp [ensureSignedCommitsM, hsc, hgp, hp]
      · simp [ensureSignedCommitsM, hsc, hgp, hp]

theorem processBranch_dry_pure (o rn : String) (b : Branch) (sd : RemoteState) :
    (processBranchM o rn b true sd).state = sd ∧
    (processBranchM o rn b true sd).writes = [] := by
  have h := sc_dry_pure o rn b sd
  cases hgp : getProtS sd rn b.name with
  | none => simp [processBranchM, hgp, createProtectedBranchM, h.1, h.2]
  | some p => simp [processBranchM, hgp, updateBranchProtectionM, h.1, h.2]

theorem branchesLoop_dry_pure (o rn : String) :
    ∀ (bs : List Branch) (sd : RemoteState),
      (branchesLoop o rn true bs sd).state = sd := by
  intro bs
  induction bs with
  | nil => intro sd; rfl
  | cons b bs ih =>
    intro sd
    rw [branchesLoop]
    cases he : (processBranchM o rn b true sd).err with
    | some e =>
      simp only [he]
      exact (processBranch_dry_pure o rn b sd).1
    | none =>
      simp only [he]
      show (branchesLoop o rn true bs (processBranchM o rn b true sd).state).state = sd
      rw [(processBranch_dry_pure o rn b sd).1, ih]

theorem topics_dry_pure (o : String) (r : Repository) (ghr : Option GhRepo)
    (sd : RemoteState) : (ensureTopicsM o r ghr true sd).state = sd := by
  by_cases hl : r.labels.isEmpty
  · simp [ensureTopicsM, hl]
  · cases ghr with
    | none => simp [ensureTopicsM, hl]
    | some g =>
      by_cases he : sortStrings g.topics = sortStrings r.labels
      · simp [ensureTopicsM, hl, he]
      · simp [ensureTopicsM, hl, he]

theorem ensureRepo_dry_pure (o : String) (r : Repository) (sd : RemoteState) :
    (ensureRepoM o r true sd).state = sd := by
  cases hg : getRepoS sd r.name with
  | none =>
    cases hl : r.labels.isEmpty with
    | false => rw [ensureRepo_crash_dry_eq o r sd hg hl]
    | true =>
      rw [ensureRepo_none_dry_eq o r sd hg hl]
      exact branchesLoop_dry_pure o r.name r.protectedBranches sd
  | some g =>
    rw [ensureRepo_found_dry_eq o r sd g hg]
    show (branchesLoop o r.name true r.protectedBranches
      (ensureTopicsM o r (some g) true sd).state).state = sd
    rw [topics_dry_pure, branchesLoop_dry_pure]

/-! ## C2: tense maps of the report builders -/

theorem optReport_setDry {α : Type} (o : Option α) (f1 f2 : α → Report)
    (h : ∀ v, setDry false (f1 v) = f2 v) :
    (optReport o f1).map (setDry false) = optReport o f2 := by
  cases o with
  | none => rfl
  | some v => show [setDry false (f1 v)] = [f2 v]; rw [h v]

theorem editReports_setDry (e : Edits) :
    (editReports true e).map (setDry false) = editReports false e := by
  rw [editReports, editReports]
  rw [List.map_append, List.map_append, List.map_append]
  rw [optReport_setDry e.description _ _ (fun v => rfl),
    optReport_setDry e.archived _ _ (fun v => rfl),
    optReport_setDry e.priv _ _ (fun v => rfl),
    optReport_setDry e.defaultBranch _ _ (fun v => rfl)]
  rfl

theorem createReports_setDry (cs : CreateState) :
    (createReports true cs).map (setDry false) = createReports false cs := by
  rw [createReports, createReports, List.map_cons]
  rw [List.map_append, List.map_append, List.map_append, List.map_append]
  rw [optReport_setDry cs.description _ _ (fun v => rfl),
    optReport_setDry cs.archived _ _ (fun v => rfl),
    optReport_setDry cs.priv _ _ (fun v => rfl),
    optReport_setDry cs.defaultBranch _ _ (fun v => rfl)]
  by_cases ht : cs.topics.isEmpty
  · rw [if_pos ht, if_pos ht]; rfl
  · rw [if_neg ht, if_neg ht]; rfl

theorem createProtReports_setDry (rn : String) (b : Branch) :
    (createProtReports true rn b).map (setDry false) = createProtReports false rn b := by
  rw [createProtReports, createProtReports, List.map_cons, List.map_append]
  cases b.protection.requirePr with
  | none =>
    cases b.protection.checksMustPass with
    | none => rfl
    | some v =>
      by_cases hc : b.protection.requiredChecks.isEmpty
      · rw [if_pos hc, if_pos hc]; rfl
      · rw [if_neg hc, if_neg hc]; rfl
  | some w =>
    cases b.protection.checksMustPass with
    | none => rfl
    | some v =>
      by_cases hc : b.protection.requiredChecks.isEmpty
      · rw [if_pos hc, if_pos hc]; rfl
      · rw [if_neg hc, if_neg hc]; rfl

theorem updateProtReports_setDry (rn : String) (b : Branch) :
    (updateProtReports true rn b).map (setDry false) = updateProtReports false rn b := by
  rw [updateProtReports, updateProtReports, List.map_cons, List.map_append]
  cases b.protection.requirePr with
  | none =>
    cases b.protection.checksMustPass with
    | none => rfl
    | some v =>
      by_cases hc : b.protection.requiredChecks.isEmpty
      · rw [if_pos hc, if_pos hc]; rfl
      · rw [if_neg hc, if_neg hc]; rfl
  | some w =>
    cases b.protection.checksMustPass with
    | none => rfl
    | some v =>
      by_cases hc : b.protection.requiredChecks.isEmpty
      · rw [if_pos hc, if_pos hc]; rfl
      · rw [if_neg hc, if_neg hc]; rfl

/-! ## C2: equation lemmas for the branch-protection paths -/

theorem sc_none_eq (o rn : String) (b : Branch) (dry : Bool) (s : RemoteState)
    (hsc : b.protection.signedCommits = none) :
    ensureSignedCommitsM o rn b dry s = ⟨[], [], none, s⟩ := by
  rw [ensureSignedCommitsM]
  simp only [hsc]

theorem updateBranch_dry_eq (o rn : String) (b : Branch) (sd : RemoteState) :
    updateBranchProtectionM o rn b true sd =
      ⟨updateProtReports true rn b ++ (ensureSignedCommitsM o rn b true sd).reports,
       (ensureSignedCommitsM o rn b true sd).writes,
       (ensureSignedCommitsM o rn b true sd).err,
       (ensureSignedCommitsM o rn b true sd).state⟩ := by
  rw [updateBranchProtectionM]
  simp

theorem updateBranch_apply_eq (o rn : String) (b : Branch) (sa : RemoteState) :
    updateBranchProtectionM o rn b false sa =
      ⟨updateProtReports false rn b ++
         (ensureSignedCommitsM o rn b false
           (modifyRepoS sa rn (ensureProtEntry b.name))).reports,
       Call.protectBranch o rn b.name (buildReq b) ::
         (ensureSignedCommitsM o rn b false
           (modifyRepoS sa rn (ensureProtEntry b.name))).writes,
       (ensureSignedCommitsM o rn b false
         (modifyRepoS sa rn (ensureProtEntry b.name))).err,
       (ensureSignedCommitsM o rn b false
         (modifyRepoS sa rn (ensureProtEntry b.name))).state⟩ := by
  rw [updateBranchProtectionM]
  simp

theorem createBranch_dry_eq (o rn : String) (b : Branch) (sd : RemoteState) :
    createProtectedBranchM o rn b true sd =
      ⟨createProtReports true rn b ++ (ensureSignedCommitsM o rn b true sd).reports,
       (ensureSignedCommitsM o rn b true sd).writes,
       (ensureSignedCommitsM o rn b true sd).err,
       (ensureSignedCommitsM o rn b true sd).state⟩ := by
  rw [createProtectedBranchM]
  simp

theorem createBranch_apply_eq (o rn : String) (b : Branch) (sa : RemoteState) :
    createProtectedBranchM o rn b false sa =
      ⟨createProtReports false rn b ++
         (ensureSignedCommitsM o rn b false
           (modifyRepoS sa rn (ensureProtEntry b.name))).reports,
       Call.protectBranch o rn b.name (buildReq b) ::
         (ensureSignedCommitsM o rn b false
           (modifyRepoS sa rn (ensureProtEntry b.name))).writes,
       (ensureSignedCommitsM o rn b false
         (modifyRepoS sa rn (ensureProtEntry b.name))).err,
       (ensureSignedCommitsM o rn b false
         (modifyRepoS sa rn (ensureProtEntry b.name))).state⟩ := by
  rw [createProtectedBranchM]
  simp

theorem processBranch_eq_update (o rn : String) (b : Branch) (dry : Bool)
    (s : RemoteState) (p : GhProt) (h : getProtS s rn b.name = some p) :
    processBranchM o rn b dry s = updateBranchProtectionM o rn b dry s := by
  rw [processBranchM]
  simp only [h]

theorem processBranch_eq_create (o rn : String) (b : Branch) (dry : Bool)
    (s : RemoteState) (h : getProtS s rn b.name = none) :
    processBranchM o rn b dry s = createProtectedBranchM o rn b dry s := by
  rw [processBranchM]
  simp only [h]

theorem getProtS_modify_ensureProt_ne (sa : RemoteState) (rn bn nb : String)
    (h : bn ≠ nb) :
    getProtS (modifyRepoS sa rn (ensureProtEntry nb)) rn bn = getProtS sa rn bn := by
  rw [getProtS, getProtS, getRepoS_modify_self sa rn _ (ensureProtEntry_name nb)]
  cases getRepoS sa rn with
  | none => rfl
  | some g =>
    show findProt (ensureProtEntry nb g).prot bn = findProt g.prot bn
    exact findProt_ensureProtEntry_ne nb bn h g

theorem getProtS_modify_ensureProt_found (sa : RemoteState) (rn nb : String)
    (p : GhProt) (h : getProtS sa rn nb = some p) :
    getProtS (modifyRepoS sa rn (ensureProtEntry nb)) rn nb = some p := by
  rw [getProtS] at h ⊢
  rw [getRepoS_modify_self sa rn _ (ensureProtEntry_name nb)]
  cases hgg : getRepoS sa rn with
  | none => rw [hgg] at h; cases h
  | some g =>
    simp only [hgg] at h
    show findProt (ensureProtEntry nb g).prot nb = some p
    rw [findProt_ensureProtEntry_found nb g p h]
    exact h

/-! ## C2: parity of the signed-commit and branch-protection steps -/

theorem sc_parity (o rn : String) (b : Branch) (sd sa : RemoteState)
    (hp : getProtS sa rn b.name = getProtS sd rn b.name)
    (hcond : (getProtS sd rn b.name).isSome = true ∨ b.protection.signedCommits = none) :
    ((ensureSignedCommitsM o rn b true sd).reports.map (setDry false) =
      (ensureSignedCommitsM o rn b false sa).reports) ∧
    (ensureSignedCommitsM o rn b true sd).err = none ∧
    (ensureSignedCommitsM o rn b false sa).err = none ∧
    (∀ m, m ≠ rn → getRepoS (ensureSignedCommitsM o rn b false sa).state m = getRepoS sa m) ∧
    (∀ bn, bn ≠ b.name →
      getProtS (ensureSignedCommitsM o rn b false sa).state rn bn = getProtS sa rn bn) := by
  cases hsc : b.protection.signedCommits with
  | none => simp [ensureSignedCommitsM, hsc]
  | some sc =>
    cases hgd : getProtS sd rn b.name with
    | none =>
      rcases hcond with hcond | hcond
      · rw [hgd] at hcond; cases hcond
      · rw [hsc] at hcond; cases hcond
    | some p =>
      have hga : getProtS sa rn b.name = some p := by rw [hp, hgd]
      by_cases hpe : p.requiredSignaturesEnabled = sc
      · simp [ensureSignedCommitsM, hsc, hgd, hga, hpe, setDry]
      · have hst : (ensureSignedCommitsM o rn b false sa).state =
            modifyRepoS sa rn (setSigEntry b.name) := by
          simp [ensureSignedCommitsM, hsc, hga, hpe]
        refine ⟨?_, ?_, ?_, ?_, ?_⟩
        · simp [ensureSignedCommitsM, hsc, hgd, hga, hpe, setDry]
        · simp [ensureSignedCommitsM, hsc, hgd, hpe]
        · simp [ensureSignedCommitsM, hsc, hga, hpe]
        · intro m hm
          rw [hst]
          exact getRepoS_modify_ne sa rn _ (setSigEntry_name b.name) m hm
        · intro bn hbn
          rw [hst, getProtS, getProtS,
            getRepoS_modify_self sa rn _ (setSigEntry_name b.name)]
          cases getRepoS sa rn with
          | none => rfl
          | some g =>
            show findProt (setSigEntry b.name g).prot bn = findProt g.prot bn
            exact findProt_setProtEntry_ne b.name bn hbn g.prot

theorem branch_parity (o rn : String) (b : Branch) (sd sa : RemoteState)
    (hp : getProtS sa rn b.name = getProtS sd rn b.name)
    (hcond : (getProtS sd rn b.name).isSome = true ∨ b.protection.signedCommits = none) :
    ((processBranchM o rn b true sd).reports.map (setDry false) =
      (processBranchM o rn b false sa).reports) ∧
    (processBranchM o rn b true sd).err = none ∧
    (processBranchM o rn b false sa).err = none ∧
    (∀ m, m ≠ rn → getRepoS (processBranchM o rn b false sa).state m = getRepoS sa m) ∧
    (∀ bn, bn ≠ b.name →
      getProtS (processBranchM o rn b false sa).state rn bn = getProtS sa rn bn) := by
  cases hgd : getProtS sd rn b.name with
  | some p =>
    have hga : getProtS sa rn b.name = some p := by rw [hp, hgd]
    have hs1p : getProtS (modifyRepoS sa rn (ensureProtEntry b.name)) rn b.name = some p :=
      getProtS_modify_ensureProt_found sa rn b.name p hga
    obtain ⟨q1, q2, q3, q4, q5⟩ := sc_parity o rn b sd
      (modifyRepoS sa rn (ensureProtEntry b.name))
      (by rw [hs1p, hgd]) (Or.inl (by rw [hgd]; rfl))
    rw [processBranch_eq_update o rn b true sd p hgd,
      processBranch_eq_update o rn b false sa p hga,
      updateBranch_dry_eq, updateBranch_apply_eq]
    refine ⟨?_, q2, q3, ?_, ?_⟩
    · show (updateProtReports true rn b ++ _).map (setDry false) = _
      rw [List.map_append, updateProtReports_setDry, q1]
    · intro m hm
      show getRepoS (ensureSignedCommitsM o rn b false
        (modifyRepoS sa rn (ensureProtEntry b.name))).state m = getRepoS sa m
      rw [q4 m hm]
      exact getRepoS_modify_ne sa rn _ (ensureProtEntry_name b.name) m hm
    · intro bn hbn
      show getProtS (ensureSignedCommitsM o rn b false
        (modifyRepoS sa rn (ensureProtEntry b.name))).state rn bn = getProtS sa rn bn
      rw [q5 bn hbn]
      exact getProtS_modify_ensureProt_ne sa rn bn b.name hbn
  | none =>
    have hga : getProtS sa rn b.name = none := by rw [hp, hgd]
    have hsc : b.protection.signedCommits = none := by
      rcases hcond with hcond | hcond
      · rw [hgd] at hcond; cases hcond
      · exact hcond
    rw [processBranch_eq_create o rn b true sd hgd,
      processBranch_eq_create o rn b false sa hga,
      createBranch_dry_eq, createBranch_apply_eq,
      sc_none_eq o rn b true sd hsc,
      sc_none_eq o rn b false (modifyRepoS sa rn (ensureProtEntry b.name)) hsc]
    refine ⟨?_, rfl, rfl, ?_, ?_⟩
    · show (createProtReports true rn b ++ []).map (setDry false) =
        createProtReports false rn b ++ []
      rw [List.map_append, createProtReports_setDry]
      rfl
    · intro m hm
      exact getRepoS_modify_ne sa rn _ (ensureProtEntry_name b.name) m hm
    · intro bn hbn
      exact getProtS_modify_ensureProt_ne sa rn bn b.name hbn

theorem branchesLoop_cons_eq (o rn : String) (dry : Bool) (b : Branch)
    (bs : List Branch) (s : RemoteState)
    (h : (processBranchM o rn b dry s).err = none) :
    branchesLoop o rn dry (b :: bs) s =
      ⟨(processBranchM o rn b dry s).reports ++
         (branchesLoop o rn dry bs (processBranchM o rn b dry s).state).reports,
       (processBranchM o rn b dry s).writes ++
         (branchesLoop o rn dry bs (processBranchM o rn b dry s).state).writes,
       (branchesLoop o rn dry bs (processBranchM o rn b dry s).state).err,
       (branchesLoop o rn dry bs (processBranchM o rn b dry s).state).state⟩ := by
  rw [branchesLoop]
  simp only [h]

theorem branches_parity (o rn : String) :
    ∀ (bs : List Branch) (sd sa : RemoteState),
      (bs.map Branch.name).Nodup →
      (∀ b ∈ bs, getProtS sa rn b.name = getProtS sd rn b.name) →
      (∀ b ∈ bs, (getProtS sd rn b.name).isSome = true ∨
        b.protection.signedCommits = none) →
      ((branchesLoop o rn true bs sd).reports.map (setDry false) =
        (branchesLoop o rn false bs sa).reports) ∧
      (branchesLoop o rn true bs sd).err = none ∧
      (branchesLoop o rn false bs sa).err = none ∧
      (∀ m, m ≠ rn → getRepoS (branchesLoop o rn false bs sa).state m = getRepoS sa m) ∧
      (∀ bn, bn ∉ bs.map Branch.name →
        getProtS (branchesLoop o rn false bs sa).state rn bn = getProtS sa rn bn) := by
  intro bs
  induction bs with
  | nil =>
    intro sd sa _ _ _
    exact ⟨rfl, rfl, rfl, fun m _ => rfl, fun bn _ => rfl⟩
  | cons b bs ih =>
    intro sd sa hnd hpp hcond
    rw [List.map_cons, List.nodup_cons] at hnd
    obtain ⟨p1, p2, p3, p4, p5⟩ := branch_parity o rn b sd sa
      (hpp b (List.mem_cons_self b bs))
      (hcond b (List.mem_cons_self b bs))
    have hbne : ∀ b2 ∈ bs, b2.name ≠ b.name := by
      intro b2 hb2 hc
      exact hnd.1 (hc ▸ List.mem_map_of_mem Branch.name hb2)
    obtain ⟨q1, q2, q3, q4, q5⟩ := ih sd (processBranchM o rn b false sa).state hnd.2
      (fun b2 hb2 => by
        rw [p5 b2.name (hbne b2 hb2)]
        exact hpp b2 (List.mem_cons_of_mem b hb2))
      (fun b2 hb2 => hcond b2 (List.mem_cons_of_mem b hb2))
    rw [branchesLoop_cons_eq o rn true b bs sd p2,
      branchesLoop_cons_eq o rn false b bs sa p3,
      (processBranch_dry_pure o rn b sd).1]
    refine ⟨?_, q2, q3, ?_, ?_⟩
    · rw [List.map_append, p1, q1]
    · intro m hm
      rw [q4 m hm]
      exact p4 m hm
    · intro bn hbn
      rw [List.map_cons, List.mem_cons] at hbn
      push_neg at hbn
      rw [q5 bn hbn.2]
      exact p5 bn hbn.1

/-! ## C2: parity and frames for topics and repository steps -/

theorem topics_reports_parity (o : String) (r : Repository) (ghr : Option GhRepo)
    (sx sy : RemoteState) :
    (ensureTopicsM o r ghr true sx).reports.map (setDry false) =
      (ensureTopicsM o r ghr false sy).reports := by
  by_cases hl : r.labels.isEmpty
  · simp [ensureTopicsM, hl]
  · cases ghr with
    | none => simp [ensureTopicsM, hl]
    | some g =>
      by_cases he : sortStrings g.topics = sortStrings r.labels
      · simp [ensureTopicsM, hl, he, setDry]
      · simp [ensureTopicsM, hl, he, setDry]

theorem topics_apply_frame (o : String) (r : Repository) (ghr : Option GhRepo)
    (sy : RemoteState) :
    (∀ m, m ≠ r.name → getRepoS (ensureTopicsM o r ghr false sy).state m = getRepoS sy m) ∧
    (∀ bn, getProtS (ensureTopicsM o r ghr false sy).state r.name bn =
      getProtS sy r.name bn) := by
  by_cases hl : r.labels.isEmpty
  · simp [ensureTopicsM, hl]
  · cases ghr with
    | none => simp [ensureTopicsM, hl]
    | some g =>
      by_cases he : sortStrings g.topics = sortStrings r.labels
      · simp [ensureTopicsM, hl, he]
      · have hst : (ensureTopicsM o r (some g) false sy).state =
            modifyRepoS sy r.name (fun g3 => { g3 with topics := sortStrings r.labels }) := by
          simp [ensureTopicsM, hl, he]
        constructor
        · intro m hm
          rw [hst]
          exact getRepoS_modify_ne sy r.name
            (fun g3 => { g3 with topics := sortStrings r.labels }) (fun g2 => rfl) m hm
        · intro bn
          rw [hst]
          exact getProtS_modify_protpres sy r.name
            (fun g3 => { g3 with topics := sortStrings r.labels }) (fun g2 => rfl)
            (fun g2 => rfl) bn

theorem createRepoM_dry_eq (o : String) (r : Repository) (s : RemoteState) :
    createRepoM o r true s = ⟨createReports true (createState r), [], s⟩ := by
  rw [createRepoM]
  simp

theorem createRepoM_apply_eq (o : String) (r : Repository) (s : RemoteState) :
    createRepoM o r false s =
      ⟨createReports false (createState r), [Call.createRepo o (createState r)],
       createRepoS s (ghRepoOfCreate (createState r))⟩ := by
  rw [createRepoM]
  simp

theorem repo_parity (o : String) (r : Repository) (sd sa : RemoteState)
    (hr : getRepoS sa r.name = getRepoS sd r.name)
    (hndb : (r.protectedBranches.map Branch.name).Nodup)
    (hcond : ∀ b ∈ r.protectedBranches,
      (getProtS sd r.name b.name).isSome = true ∨ b.protection.signedCommits = none) :
    ((ensureRepoM o r true sd).reports.map (setDry false) =
      (ensureRepoM o r false sa).reports) ∧
    (ensureRepoM o r true sd).err = (ensureRepoM o r false sa).err ∧
    (∀ m, m ≠ r.name → getRepoS (ensureRepoM o r false sa).state m = getRepoS sa m) := by
  cases hgd : getRepoS sd r.name with
  | some g =>
    have hga : getRepoS sa r.name = some g := by rw [hr, hgd]
    have hs2m : ∀ m, m ≠ r.name →
        getRepoS (modifyRepoS sa r.name (applyEdits (computeEdits r (some g)))) m =
          getRepoS sa m :=
      fun m hm => getRepoS_modify_ne sa r.name
        (applyEdits (computeEdits r (some g))) (fun g2 => rfl) m hm
    have hs2p : ∀ bn,
        getProtS (modifyRepoS sa r.name (applyEdits (computeEdits r (some g)))) r.name bn =
          getProtS sa r.name bn :=
      fun bn => getProtS_modify_protpres sa r.name
        (applyEdits (computeEdits r (some g))) (fun g2 => rfl) (fun g2 => rfl) bn
    obtain ⟨htm, htp⟩ := topics_apply_frame o r (some g)
      (modifyRepoS sa r.name (applyEdits (computeEdits r (some g))))
    have hbp : ∀ b ∈ r.protectedBranches,
        getProtS (ensureTopicsM o r (some g) false
          (modifyRepoS sa r.name (applyEdits (computeEdits r (some g))))).state
            r.name b.name =
          getProtS sd r.name b.name := by
      intro b _
      rw [htp b.name, hs2p b.name]
      exact getProtS_congr sa sd r.name hr b.name
    obtain ⟨q1, q2, q3, q4, _⟩ := branches_parity o r.name r.protectedBranches sd
      (ensureTopicsM o r (some g) false
        (modifyRepoS sa r.name (applyEdits (computeEdits r (some g))))).state
      hndb (fun b hb => hbp b hb) hcond
    rw [ensureRepo_found_dry_eq o r sd g hgd, ensureRepo_found_apply_eq o r sa g hga,
      topics_dry_pure o r (some g) sd]
    refine ⟨?_, q2.trans q3.symm, ?_⟩
    · simp only [List.map_append]
      rw [editReports_setDry, topics_reports_parity o r (some g) sd
        (modifyRepoS sa r.name (applyEdits (computeEdits r (some g)))), q1]
    · intro m hm
      show getRepoS (branchesLoop o r.name false r.protectedBranches
        (ensureTopicsM o r (some g) false
          (modifyRepoS sa r.name (applyEdits (computeEdits r (some g))))).state).state m =
        getRepoS sa m
      rw [q4 m hm, htm m hm]
      exact hs2m m hm
  | none =>
    have hga : getRepoS sa r.name = none := by rw [hr, hgd]
    have hsa1self : getRepoS (createRepoS sa (ghRepoOfCreate (createState r))) r.name =
        some (ghRepoOfCreate (createState r)) :=
      getRepoS_create_self sa _ hga
    have hsa1m : ∀ m, m ≠ r.name →
        getRepoS (createRepoS sa (ghRepoOfCreate (createState r))) m = getRepoS sa m :=
      fun m hm => getRepoS_create_ne sa _ m (fun hc => hm hc.symm)
    have hs2m : ∀ m, m ≠ r.name →
        getRepoS (modifyRepoS (createRepoS sa (ghRepoOfCreate (createState r))) r.name
          (applyEdits (computeEdits r none))) m = getRepoS sa m := by
      intro m hm
      rw [getRepoS_modify_ne _ r.name (applyEdits (computeEdits r none))
        (fun g2 => rfl) m hm]
      exact hsa1m m hm
    cases hl : r.labels.isEmpty with
    | false =>
      rw [ensureRepo_crash_dry_eq o r sd hgd hl, ensureRepo_crash_apply_eq o r sa hga hl]
      refine ⟨?_, rfl, ?_⟩
      · simp only [List.map_append]
        rw [createReports_setDry, editReports_setDry]
      · intro m hm
        exact hs2m m hm
    | true =>
      have hs2p : ∀ bn,
          getProtS (modifyRepoS (createRepoS sa (ghRepoOfCreate (createState r))) r.name
            (applyEdits (computeEdits r none))) r.name bn = none := by
        intro bn
        rw [getProtS_modify_protpres _ r.name (applyEdits (computeEdits r none))
          (fun g2 => rfl) (fun g2 => rfl) bn, getProtS, hsa1self]
        rfl
      have hbp : ∀ b ∈ r.protectedBranches,
          getProtS (modifyRepoS (createRepoS sa (ghRepoOfCreate (createState r))) r.name
            (applyEdits (computeEdits r none))) r.name b.name =
            getProtS sd r.name b.name := by
        intro b _
        rw [hs2p b.name, getProtS, hgd]
      obtain ⟨q1, q2, q3, q4, _⟩ := branches_parity o r.name r.protectedBranches sd
        (modifyRepoS (createRepoS sa (ghRepoOfCreate (createState r))) r.name
          (applyEdits (computeEdits r none)))
        hndb (fun b hb => hbp b hb) hcond
      rw [ensureRepo_none_dry_eq o r sd hgd hl, ensureRepo_none_apply_eq o r sa hga hl]
      refine ⟨?_, q2.trans q3.symm, ?_⟩
      · simp only [List.map_append]
        rw [createReports_setDry, editReports_setDry, q1]
      · intro m hm
        show getRepoS (branchesLoop o r.name false r.protectedBranches
          (modifyRepoS (createRepoS sa (ghRepoOfCreate (createState r))) r.name
            (applyEdits (computeEdits r none)))).state m = getRepoS sa m
        rw [q4 m hm]
        exact hs2m m hm

theorem reposLoop_cons_eq (o : String) (dry : Bool) (r : Repository)
    (rs : List Repository) (s : RemoteState)
    (h : (ensureRepoM o r dry s).err = none) :
    reposLoop o dry (r :: rs) s =
      ⟨(ensureRepoM o r dry s).reports ++
         (reposLoop o dry rs (ensureRepoM o r dry s).state).reports,
       (ensureRepoM o r dry s).writes ++
         (reposLoop o dry rs (ensureRepoM o r dry s).state).writes,
       (reposLoop o dry rs (ensureRepoM o r dry s).state).err,
       (ensureRepoM o r dry s).repo ::
         (reposLoop o dry rs (ensureRepoM o r dry s).state).repos,
       (reposLoop o dry rs (ensureRepoM o r dry s).state).state⟩ := by
  rw [reposLoop]
  simp only [h]

theorem reposLoop_cons_err_eq (o : String) (dry : Bool) (r : Repository)
    (rs : List Repository) (s : RemoteState) (e : Err)
    (h : (ensureRepoM o r dry s).err = some e) :
    reposLoop o dry (r :: rs) s =
      ⟨(ensureRepoM o r dry s).reports, (ensureRepoM o r dry s).writes,
       some e, (ensureRepoM o r dry s).repo :: rs, (ensureRepoM o r dry s).state⟩ := by
  rw [reposLoop]
  simp only [h]

theorem repos_parity (o : String) :
    ∀ (rs : List Repository) (sd sa : RemoteState),
      (rs.map Repository.name).Nodup →
      (∀ r ∈ rs, getRepoS sa r.name = getRepoS sd r.name) →
      (∀ r ∈ rs, (r.protectedBranches.map Branch.name).Nodup) →
      (∀ r ∈ rs, ∀ b ∈ r.protectedBranches,
        (getProtS sd r.name b.name).isSome = true ∨ b.protection.signedCommits = none) →
      ((reposLoop o true rs sd).reports.map (setDry false) =
        (reposLoop o false rs sa).reports) ∧
      (reposLoop o true rs sd).err = (reposLoop o false rs sa).err := by
  intro rs
  induction rs with
  | nil => intro sd sa _ _ _ _; exact ⟨rfl, rfl⟩
  | cons r rs ih =>
    intro sd sa hnd hrr hndb hcond
    rw [List.map_cons, List.nodup_cons] at hnd
    obtain ⟨p1, p2, p3⟩ := repo_parity o r sd sa
      (hrr r (List.mem_cons_self r rs))
      (hndb r (List.mem_cons_self r rs))
      (hcond r (List.mem_cons_self r rs))
    cases he : (ensureRepoM o r true sd).err with
    | some e =>
      have hea : (ensureRepoM o r false sa).err = some e := by rw [← p2, he]
      rw [reposLoop_cons_err_eq o true r rs sd e he,
        reposLoop_cons_err_eq o false r rs sa e hea]
      exact ⟨p1, rfl⟩
    | none =>
      have hea : (ensureRepoM o r false sa).err = none := by rw [← p2, he]
      have hrne : ∀ r2 ∈ rs, r2.name ≠ r.name := by
        intro r2 hr2 hc
        exact hnd.1 (hc ▸ List.mem_map_of_mem Repository.name hr2)
      obtain ⟨q1, q2⟩ := ih sd (ensureRepoM o r false sa).state hnd.2
        (fun r2 hr2 => by
          rw [p3 r2.name (hrne r2 hr2)]
          exact hrr r2 (List.mem_cons_of_mem r hr2))
        (fun r2 hr2 => hndb r2 (List.mem_cons_of_mem r hr2))
        (fun r2 hr2 => hcond r2 (List.mem_cons_of_mem r hr2))
      rw [reposLoop_cons_eq o true r rs sd he, reposLoop_cons_eq o false r rs sa hea,
        ensureRepo_dry_pure o r sd]
      exact ⟨by rw [List.map_append, p1, q1], q2⟩

theorem members_reports_parity (org : Organization) (s : RemoteState) :
    (membersRunM org true s).reports.map (setDry false) =
      (membersRunM org false s).reports := by
  rw [membersRunM, membersRunM, inviteMembersM, inviteMembersM]
  simp only [if_pos (rfl : true = true), if_neg (by decide : ¬ false = true), if_true]
  rw [List.map_append]
  show _ ++ _ = _ ++ _
  rw [List.map_map, List.map_map]
  refine congrArg₂ List.append ?_ ?_
  · apply List.map_congr_left
    intro l _
    show setDry false (memberReport org.people l) = memberReport org.people l
    rw [memberReport]
    by_cases hm : managedMember org.people l
    · rw [if_pos hm]; rfl
    · rw [if_neg hm]; rfl
  · apply List.map_congr_left
    intro m _
    rfl

/-! ## C2: the claim theorems -/

/-- C2 counterexample: each proviso of the amended statement is forced.
First, for a manifested protected branch whose protection does not yet exist
remotely and whose signed-commit flag is set, the dry run aborts at the
signed-commit lookup with branch-protection-not-found while the apply run
succeeds, so the outcomes and the report sequences differ beyond tense.
Second, for a manifest listing the same absent repository twice, the dry run
reports two creations while the apply run creates once and then finds the
repository, so the reports differ beyond tense.  Third, for a repository
declaring the same branch twice, the dry run reports two protection creations
while the apply run creates once and then updates, again diverging. -/
theorem dry_apply_parity_cex :
    (((runAll orgSigned true sOneRepo).reports.map (setDry false) ≠
        (runAll orgSigned false sOneRepo).reports) ∧
      (runAll orgSigned true sOneRepo).err = some Err.branchProtectionNotFound ∧
      (runAll orgSigned false sOneRepo).err = none) ∧
    ((runAll orgDup true sEmpty).reports.map (setDry false) ≠
      (runAll orgDup false sEmpty).reports) ∧
    ((runAll orgDupBr true sOneRepo).reports.map (setDry false) ≠
      (runAll orgDupBr false sOneRepo).reports) :=
  ⟨⟨by decide, by decide, by decide⟩, by decide, by decide⟩

/-- C2 amended: provided the manifest repository names and per-repository
branch names are distinct and no manifested branch both lacks existing remote
protection and sets the signed-commit flag, the dry-run and apply report
sequences are identical up to the tense flag of the wording (rewriting every
dry-tense line to its apply-tense counterpart yields exactly the apply
sequence) and the two runs end with the same outcome: the same error, or
none.  In particular, on a remotely-absent repository with a non-empty label
list both modes emit the tense-matching create and edit lines and then abort
with the same nil-dereference panic at the topics read.  Each proviso is
necessary (see the counterexample): without it the two modes can diverge
beyond tense. -/
theorem dry_apply_parity (org : Organization) (s : RemoteState)
    (hnd : (org.repositories.map Repository.name).Nodup)
    (hndb : ∀ r ∈ org.repositories, (r.protectedBranches.map Branch.name).Nodup)
    (hcond : ∀ r ∈ org.repositories, ∀ b ∈ r.protectedBranches,
      (getProtS s r.name b.name).isSome = true ∨ b.protection.signedCommits = none) :
    ((runAll org true s).reports.map (setDry false) = (runAll org false s).reports) ∧
    (runAll org true s).err = (runAll org false s).err := by
  obtain ⟨q1, q2⟩ := repos_parity org.name org.repositories s s hnd
    (fun r _ => rfl) hndb hcond
  refine ⟨?_, q2⟩
  show ((membersRunM org true s).reports ++
    (reposLoop org.name true org.repositories s).reports).map (setDry false) =
    (membersRunM org false s).reports ++
    (reposLoop org.name false org.repositories s).reports
  rw [List.map_append, members_reports_parity, q1]

theorem dry_apply_parity_witness :
    (((runAll orgSigned true sSigned).reports.map (setDry false) =
        (runAll orgSigned false sSigned).reports) ∧
      (runAll orgSigned true sSigned).err = (runAll orgSigned false sSigned).err) ∧
    (((runAll orgAbsentLabels true sEmpty).reports.map (setDry false) =
        (runAll orgAbsentLabels false sEmpty).reports) ∧
      (runAll orgAbsentLabels true sEmpty).err = (runAll orgAbsentLabels false sEmpty).err) :=
  ⟨dry_apply_parity orgSigned sSigned (by decide) (by decide) (by decide),
   dry_apply_parity orgAbsentLabels sEmpty (by decide) (by decide) (by decide)⟩

end Concord
